import Mathlib

/-!
Verification of the asset dependency-graph analyzer
(`Content/Python/adr/adr_graph.py`, `Content/Python/adr/adr_policy.py`).

The Python modules are shallowly embedded: strings are `String`
(with character-level helpers on `List Char` mirroring Python string
methods), Python dicts that are only ever extended become ordered
association lists, and the BFS `while` loop becomes a well-founded
recursion.  The two genuinely partial loops of the original — the
recursive tree projection and the backward parent walk — are embedded
with an explicit fuel parameter that models the call stack / loop
counter: the Python code diverges on an input exactly when the fuel
model returns `none` for every fuel value.
-/

/-- The characters Python `str.strip()` removes (ASCII whitespace). -/
def isPySpace (c : Char) : Bool :=
  c = ' ' || c = '\t' || c = '\n' || c = '\r' || c = '\x0b' || c = '\x0c'

/-- Python `s.strip()` on a character list. -/
def pyStrip (l : List Char) : List Char :=
  ((l.dropWhile isPySpace).reverse.dropWhile isPySpace).reverse

/-- Python `s.split("/")[-1]`: the segment after the last slash. -/
def lastSegment (l : List Char) : List Char :=
  l.foldl (fun acc c => if c = '/' then [] else acc ++ [c]) []

/-- The single-quote character used by the editor export-text syntax. -/
def quoteChar : Char := '\x27'

/-- Python `s[s.find(q) + 1 : s.rfind(q)]` for a string that ends with
the quote character: everything strictly between the first quote and the
final character. -/
def betweenQuotes (l : List Char) : List Char :=
  ((l.dropLast).dropWhile (fun c => c ≠ quoteChar)).drop 1

/-- Python `sub in s`: contiguous substring containment. -/
def hasSub (sub : List Char) : List Char → Bool
  | [] => sub.isPrefixOf []
  | c :: t => sub.isPrefixOf (c :: t) || hasSub sub t

/-- `EDITOR_ONLY_MARKERS` from `adr_graph.py`. -/
def EDITOR_ONLY_MARKERS : List (List Char) :=
  ["/Editor/".toList, "/Developers/".toList, "/Test/".toList, "/Debug/".toList]

/-- `MAX_DEFAULT_NODES` from `adr_graph.py`. -/
def MAX_DEFAULT_NODES : Nat := 400

/-- `asset_path_to_object_path` from `adr_graph.py`: strip whitespace,
extract a quote-delimited payload when the string ends with a quote,
and append `.` plus the final path segment when no dot is present. -/
def asset_path_to_object_path (asset_path : String) : String :=
  if asset_path = "" then asset_path
  else
    let s := pyStrip asset_path.toList
    let s :=
      if s.contains quoteChar && (s.getLast? == some quoteChar) then betweenQuotes s
      else s
    let s :=
      if s.contains '.' then s
      else s ++ '.' :: lastSegment s
    ⟨s⟩

/-- `object_path_to_package_name` from `adr_graph.py`:
normalize, then take the part before the first dot. -/
def object_path_to_package_name (object_path : String) : String :=
  ⟨(asset_path_to_object_path object_path).toList.takeWhile (fun c => c ≠ '.')⟩

/-- `is_editor_only_suspected` from `adr_graph.py`: substring test
against the fixed marker list. -/
def is_editor_only_suspected (path : String) : Bool :=
  EDITOR_ONLY_MARKERS.any (fun m => hasSub m path.toList)

/-- `classify_dependency` from `adr_graph.py`.  Returns the reason
string and flag list for an edge; `dep_kind` is `"Hard"` or `"Soft"`. -/
def classify_dependency (root_package from_package to_package dep_kind : String)
    (depth : Nat) : String × List String :=
  let flags : List String := []
  let reason :=
    if dep_kind = "Soft" then "Soft Reference (optional)" else "Hard Runtime Reference"
  let reason := if is_editor_only_suspected to_package then "Editor-only Suspected" else reason
  let flags :=
    if is_editor_only_suspected to_package then flags ++ ["editor_only"] else flags
  let flags :=
    if "/Game/".toList.isPrefixOf root_package.toList && is_editor_only_suspected to_package then
      flags ++ ["suspicious"]
    else flags
  let reason := if depth > 1 then reason ++ " (Transitive)" else reason
  (reason, flags)

example : asset_path_to_object_path "/Game/Foo" = "/Game/Foo.Foo" := by decide
example : asset_path_to_object_path "/Game/Foo.Foo" = "/Game/Foo.Foo" := by decide
example : object_path_to_package_name "/Game/Foo.Foo" = "/Game/Foo" := by decide
example : is_editor_only_suspected "/Editor/Dev/Baz" = true := by decide
example : is_editor_only_suspected "/Game/Bar/Bar" = false := by decide
example :
    classify_dependency "/Game/Foo/Foo" "/Game/Bar/Bar" "/Editor/Dev/Baz" "Soft" 2 =
      ("Editor-only Suspected (Transitive)", ["editor_only", "suspicious"]) := by decide

/-! ## Data model (§3): Node, Edge, Graph, and the builder state -/

/-- A graph node (`nodes[pkg]` dict in `build_dependency_graph`).
`klass` is the `"class"` dict entry (a Lean keyword). -/
structure Node where
  package : String
  klass : String
  flags : List String
deriving DecidableEq, Repr

/-- A graph edge (the `edge` dict in `build_dependency_graph`).
`frm` and `tgt` are the `"from"` and `"to"` dict entries (both Lean
keywords). -/
structure Edge where
  frm : String
  tgt : String
  dep_type : String
  reason : String
  flags : List String
  depth : Nat
deriving DecidableEq, Repr

/-- The `stats` dict of a built graph. -/
structure Stats where
  node_count : Nat
  edge_count : Nat
  editor_only_suspected : Nat
  soft_edges : Nat
  hard_edges : Nat
deriving DecidableEq, Repr

/-- The graph dict returned by `build_dependency_graph`.  The Python
dicts `nodes`, `parents` and `edge_by_child` are only ever extended with
fresh keys, so they are embedded as insertion-ordered association
lists. -/
structure Graph where
  root_object : String
  root_package : String
  nodes : List (String × Node)
  edges : List Edge
  parents : List (String × String)
  edge_by_child : List (String × Edge)
  truncated : Bool
  stats : Stats
deriving DecidableEq, Repr

/-- The external dependency source (§6): the Unreal asset registry
behind `_get_dependencies_hard_soft` and `get_asset_class_name`. -/
structure DepSource where
  hard : String → List String
  soft : String → List String
  className : String → String

/-- The node dict created by `ensure_node`: flags are derived once,
at creation, from the editor-only marker test on the package string. -/
def mkNode (src : DepSource) (pkg : String) : Node :=
  { package := pkg
    klass := src.className pkg
    flags := if is_editor_only_suspected pkg then ["editor_only"] else [] }

/-- `ensure_node` from `build_dependency_graph`: create the node
lazily, exactly once per package. -/
def ensure_node (src : DepSource) (nodes : List (String × Node)) (pkg : String) :
    List (String × Node) :=
  if (nodes.lookup pkg).isSome then nodes else nodes ++ [(pkg, mkNode src pkg)]

/-- The combined dependency dict of one expansion:
`deps = {d: "Hard" for d in hard}` then `deps.setdefault(d, "Soft")`
for each soft dependency.  Insertion-ordered, first writer wins
(overwriting an existing `"Hard"` entry with `"Hard"` is a no-op). -/
def combinedDeps (hard soft : List String) : List (String × String) :=
  let d := hard.foldl
    (fun acc h => if (acc.lookup h).isSome then acc else acc ++ [(h, "Hard")]) []
  soft.foldl
    (fun acc s => if (acc.lookup s).isSome then acc else acc ++ [(s, "Soft")]) d

/-- The mutable state of the BFS loop in `build_dependency_graph`. -/
structure BuildState where
  nodes : List (String × Node)
  edges : List Edge
  parents : List (String × String)
  edge_by_child : List (String × Edge)
  visited : List String
  queue : List (String × Nat)
  truncated : Bool
deriving DecidableEq, Repr

/-- The body of the `for dep, kind in deps.items()` loop: ensure the
node, classify, append the edge, record the first parent, enqueue if
unvisited.  Self-references are discarded. -/
def expandDep (src : DepSource) (root_package current : String) (depth : Nat)
    (st : BuildState) (dk : String × String) : BuildState :=
  if dk.1 = current then st
  else
    let nodes := ensure_node src st.nodes dk.1
    let rf := classify_dependency root_package current dk.1 dk.2 (depth + 1)
    let edge : Edge :=
      { frm := current, tgt := dk.1, dep_type := dk.2
        reason := rf.1, flags := rf.2, depth := depth + 1 }
    let edges := st.edges ++ [edge]
    let parents :=
      if (st.parents.lookup dk.1).isSome then st.parents
      else st.parents ++ [(dk.1, current)]
    let edge_by_child :=
      if (st.parents.lookup dk.1).isSome then st.edge_by_child
      else st.edge_by_child ++ [(dk.1, edge)]
    let visited :=
      if st.visited.contains dk.1 then st.visited else st.visited ++ [dk.1]
    let queue :=
      if st.visited.contains dk.1 then st.queue
      else st.queue ++ [(dk.1, depth + 1)]
    { nodes := nodes, edges := edges, parents := parents
      edge_by_child := edge_by_child, visited := visited, queue := queue
      truncated := st.truncated }

/-- Number of node keys not yet marked visited; part of the termination
measure of the BFS loop. -/
def unvisitedKeyCount (st : BuildState) : Nat :=
  (st.nodes.map Prod.fst).countP (fun k => !st.visited.contains k)

/-! ### Termination of the BFS loop

The loop terminates for every state: expanding a node either creates a
new node (and node creation is capped by `max_nodes`), or consumes a
node key that was not yet visited, or only shrinks the queue. -/

theorem contains_iff_mem (l : List String) (a : String) :
    l.contains a = true ↔ a ∈ l := by
  induction l with
  | nil => simp
  | cons h t ih => simp

theorem lookup_isSome_iff {β : Type} (l : List (String × β)) (k : String) :
    (l.lookup k).isSome = true ↔ k ∈ l.map Prod.fst := by
  induction l with
  | nil => simp [List.lookup]
  | cons p t ih =>
    cases p with
    | mk a b =>
      simp only [List.lookup, List.map_cons, List.mem_cons]
      by_cases hk : k = a
      · subst hk; simp
      · have hb : (k == a) = false := by simpa using hk
        simp [hb, ih, hk]

theorem not_contains_append_of (V : List String) (d k : String)
    (h : (!(V ++ [d]).contains k) = true) : (!V.contains k) = true := by
  rw [Bool.not_eq_true'] at h ⊢
  cases hVk : V.contains k with
  | false => rfl
  | true =>
    have hm : k ∈ V ++ [d] := List.mem_append_left _ ((contains_iff_mem V k).1 hVk)
    have hc : (V ++ [d]).contains k = true := (contains_iff_mem _ k).2 hm
    rw [hc] at h
    exact Bool.noConfusion h

theorem countP_visit_mono (keys V : List String) (d : String) :
    keys.countP (fun k => !(V ++ [d]).contains k) ≤
      keys.countP (fun k => !V.contains k) := by
  induction keys with
  | nil => simp
  | cons k t ih =>
    rw [List.countP_cons, List.countP_cons]
    by_cases hnew : (!(V ++ [d]).contains k : Bool) = true
    · rw [if_pos hnew, if_pos (not_contains_append_of V d k hnew)]
      omega
    · rw [if_neg hnew]
      by_cases hold : (!V.contains k : Bool) = true
      · rw [if_pos hold]; omega
      · rw [if_neg hold]; omega

theorem countP_visit_lt (keys V : List String) (d : String)
    (hd : d ∈ keys) (hv : V.contains d = false) :
    keys.countP (fun k => !(V ++ [d]).contains k) + 1 ≤
      keys.countP (fun k => !V.contains k) := by
  induction keys with
  | nil => cases hd
  | cons k t ih =>
    rw [List.countP_cons, List.countP_cons]
    by_cases hk : k = d
    · subst hk
      have hnew : ¬ ((!(V ++ [k]).contains k : Bool) = true) := by
        have hc : (V ++ [k]).contains k = true :=
          (contains_iff_mem _ k).2 (List.mem_append_right _ (by simp))
        simp [hc]
      have hold : (!V.contains k : Bool) = true := by rw [hv]; rfl
      rw [if_neg hnew, if_pos hold]
      have := countP_visit_mono t V k
      omega
    · have hd' : d ∈ t := by
        rcases List.mem_cons.1 hd with h | h
        · exact absurd h.symm hk
        · exact h
      have := ih hd'
      by_cases hnew : (!(V ++ [d]).contains k : Bool) = true
      · rw [if_pos hnew, if_pos (not_contains_append_of V d k hnew)]; omega
      · rw [if_neg hnew]
        by_cases hold : (!V.contains k : Bool) = true
        · rw [if_pos hold]; omega
        · rw [if_neg hold]; omega

theorem expandDep_nodes_le (src : DepSource) (rp cur : String) (dep : Nat)
    (st : BuildState) (dk : String × String) :
    st.nodes.length ≤ (expandDep src rp cur dep st dk).nodes.length := by
  unfold expandDep
  split
  · exact le_refl _
  · show st.nodes.length ≤ (ensure_node src st.nodes dk.1).length
    unfold ensure_node
    split
    · exact le_refl _
    · simp

theorem expandDep_measure (src : DepSource) (rp cur : String) (dep : Nat)
    (st : BuildState) (dk : String × String)
    (h : (expandDep src rp cur dep st dk).nodes.length = st.nodes.length) :
    unvisitedKeyCount (expandDep src rp cur dep st dk) +
        (expandDep src rp cur dep st dk).queue.length ≤
      unvisitedKeyCount st + st.queue.length := by
  by_cases hself : dk.1 = cur
  · simp [expandDep, hself]
  · have hnodes : (expandDep src rp cur dep st dk).nodes = ensure_node src st.nodes dk.1 := by
      simp only [expandDep, if_neg hself]
    have hvisited : (expandDep src rp cur dep st dk).visited =
        (if st.visited.contains dk.1 then st.visited else st.visited ++ [dk.1]) := by
      simp only [expandDep, if_neg hself]
    have hqueue : (expandDep src rp cur dep st dk).queue =
        (if st.visited.contains dk.1 then st.queue else st.queue ++ [(dk.1, dep + 1)]) := by
      simp only [expandDep, if_neg hself]
    by_cases hlk : (st.nodes.lookup dk.1).isSome = true
    · have hnodes' : (expandDep src rp cur dep st dk).nodes = st.nodes := by
        rw [hnodes]; simp only [ensure_node, if_pos hlk]
      by_cases hvis : st.visited.contains dk.1 = true
      · have hv' : (expandDep src rp cur dep st dk).visited = st.visited := by
          rw [hvisited, if_pos hvis]
        have hq' : (expandDep src rp cur dep st dk).queue = st.queue := by
          rw [hqueue, if_pos hvis]
        unfold unvisitedKeyCount
        rw [hnodes', hv', hq']
      · have hvisF : st.visited.contains dk.1 = false := by
          cases hb : st.visited.contains dk.1 with
          | false => rfl
          | true => exact absurd hb hvis
        have hv' : (expandDep src rp cur dep st dk).visited = st.visited ++ [dk.1] := by
          rw [hvisited, if_neg (by rw [hvisF]; exact Bool.false_ne_true)]
        have hq' : (expandDep src rp cur dep st dk).queue =
            st.queue ++ [(dk.1, dep + 1)] := by
          rw [hqueue, if_neg (by rw [hvisF]; exact Bool.false_ne_true)]
        have hmem : dk.1 ∈ st.nodes.map Prod.fst := (lookup_isSome_iff _ _).1 hlk
        have hcount := countP_visit_lt (st.nodes.map Prod.fst) st.visited dk.1 hmem hvisF
        unfold unvisitedKeyCount
        rw [hnodes', hv', hq', List.length_append, List.length_singleton]
        omega
    · exfalso
      have hgrow : (expandDep src rp cur dep st dk).nodes.length = st.nodes.length + 1 := by
        rw [hnodes]
        simp only [ensure_node, if_neg hlk]
        simp
      omega

theorem foldl_expandDep_nodes_le (src : DepSource) (rp cur : String) (dep : Nat)
    (deps : List (String × String)) (st : BuildState) :
    st.nodes.length ≤ (deps.foldl (expandDep src rp cur dep) st).nodes.length := by
  induction deps generalizing st with
  | nil => simp
  | cons d ds ih =>
    rw [List.foldl_cons]
    exact le_trans (expandDep_nodes_le src rp cur dep st d) (ih _)

theorem foldl_expandDep_measure (src : DepSource) (rp cur : String) (dep : Nat)
    (deps : List (String × String)) (st : BuildState)
    (h : (deps.foldl (expandDep src rp cur dep) st).nodes.length = st.nodes.length) :
    unvisitedKeyCount (deps.foldl (expandDep src rp cur dep) st) +
        (deps.foldl (expandDep src rp cur dep) st).queue.length ≤
      unvisitedKeyCount st + st.queue.length := by
  induction deps generalizing st with
  | nil => simp
  | cons d ds ih =>
    rw [List.foldl_cons] at h ⊢
    have h1 : st.nodes.length ≤ (expandDep src rp cur dep st d).nodes.length :=
      expandDep_nodes_le src rp cur dep st d
    have h2 : (expandDep src rp cur dep st d).nodes.length ≤
        (ds.foldl (expandDep src rp cur dep) (expandDep src rp cur dep st d)).nodes.length :=
      foldl_expandDep_nodes_le src rp cur dep ds _
    have hstep : (expandDep src rp cur dep st d).nodes.length = st.nodes.length := by omega
    exact le_trans (ih _ (by omega)) (expandDep_measure src rp cur dep st d hstep)

/-- The `while queue:` loop of `build_dependency_graph`.  Dequeue a
`(package, depth)` pair; skip expansion past `max_depth`; stop the whole
traversal (setting `truncated`) once the node count has reached
`max_nodes`; otherwise expand the node over its combined dependency
dict. -/
def bfsLoop (src : DepSource) (root_package : String) (max_depth max_nodes : Nat)
    (st : BuildState) : BuildState :=
  match hq : st.queue with
  | [] => st
  | (current, depth) :: rest =>
    if depth ≥ max_depth then
      bfsLoop src root_package max_depth max_nodes { st with queue := rest }
    else if st.nodes.length ≥ max_nodes then
      { st with queue := rest, truncated := true }
    else
      bfsLoop src root_package max_depth max_nodes
        ((combinedDeps (src.hard current) (src.soft current)).foldl
          (expandDep src root_package current depth) { st with queue := rest })
termination_by (max_nodes - st.nodes.length, unvisitedKeyCount st + st.queue.length)
decreasing_by
  · apply Prod.Lex.right
    simp [unvisitedKeyCount, hq]
  · by_cases hEq :
        (((combinedDeps (src.hard current) (src.soft current)).foldl
          (expandDep src root_package current depth)
          { st with queue := rest }).nodes.length) = st.nodes.length
    · rw [hEq]
      apply Prod.Lex.right
      have hm := foldl_expandDep_measure src root_package current depth
        (combinedDeps (src.hard current) (src.soft current)) { st with queue := rest } hEq
      have hX : unvisitedKeyCount { st with queue := rest } = unvisitedKeyCount st := rfl
      have hQ : ({ st with queue := rest } : BuildState).queue.length = rest.length := rfl
      rw [hX, hQ] at hm
      have hst : st.queue.length = rest.length + 1 := by rw [hq]; rfl
      omega
    · apply Prod.Lex.left
      have hle := foldl_expandDep_nodes_le src root_package current depth
        (combinedDeps (src.hard current) (src.soft current)) { st with queue := rest }
      have h0 : ({ st with queue := rest } : BuildState).nodes.length = st.nodes.length := rfl
      rw [h0] at hle
      omega

/-- The `stats` pass at the end of `build_dependency_graph`. -/
def mkStats (nodes : List (String × Node)) (edges : List Edge) : Stats :=
  { node_count := nodes.length
    edge_count := edges.length
    editor_only_suspected := (nodes.map Prod.snd).countP (fun n => n.flags.contains "editor_only")
    soft_edges := edges.countP (fun e => e.dep_type == "Soft")
    hard_edges := edges.countP (fun e => e.dep_type == "Hard") }

/-- `build_dependency_graph` from `adr_graph.py`: normalize the root,
create its node, run the bounded BFS, then assemble the graph dict. -/
def build_dependency_graph (src : DepSource) (root_asset_path : String)
    (max_depth max_nodes : Nat) : Graph :=
  let root_object := asset_path_to_object_path root_asset_path
  let root_package := object_path_to_package_name root_object
  let st0 : BuildState :=
    { nodes := ensure_node src [] root_package
      edges := []
      parents := []
      edge_by_child := []
      visited := [root_package]
      queue := [(root_package, 0)]
      truncated := false }
  let st := bfsLoop src root_package max_depth max_nodes st0
  { root_object := root_object
    root_package := root_package
    nodes := st.nodes
    edges := st.edges
    parents := st.parents
    edge_by_child := st.edge_by_child
    truncated := st.truncated
    stats := mkStats st.nodes st.edges }

/-! ## Concrete dependency sources for witnesses and counterexamples -/

/-- The spec §8 scenario source: root `/Game/Foo/Foo` has hard
dependency `/Game/Bar/Bar`, which has soft dependency
`/Editor/Dev/Baz`. -/
def srcDemo : DepSource :=
  { hard := fun p => if p = "/Game/Foo/Foo" then ["/Game/Bar/Bar"] else []
    soft := fun p => if p = "/Game/Bar/Bar" then ["/Editor/Dev/Baz"] else []
    className := fun _ => "Unknown" }

def fooBarEdge : Edge :=
  { frm := "/Game/Foo/Foo", tgt := "/Game/Bar/Bar", dep_type := "Hard"
    reason := "Hard Runtime Reference", flags := [], depth := 1 }

def barBazEdge : Edge :=
  { frm := "/Game/Bar/Bar", tgt := "/Editor/Dev/Baz", dep_type := "Soft"
    reason := "Editor-only Suspected (Transitive)", flags := ["editor_only", "suspicious"]
    depth := 2 }

def stD0 : BuildState :=
  { nodes := [("/Game/Foo/Foo", ⟨"/Game/Foo/Foo", "Unknown", []⟩)]
    edges := [], parents := [], edge_by_child := []
    visited := ["/Game/Foo/Foo"], queue := [("/Game/Foo/Foo", 0)], truncated := false }

def stD1 : BuildState :=
  { nodes := [("/Game/Foo/Foo", ⟨"/Game/Foo/Foo", "Unknown", []⟩),
              ("/Game/Bar/Bar", ⟨"/Game/Bar/Bar", "Unknown", []⟩)]
    edges := [fooBarEdge]
    parents := [("/Game/Bar/Bar", "/Game/Foo/Foo")]
    edge_by_child := [("/Game/Bar/Bar", fooBarEdge)]
    visited := ["/Game/Foo/Foo", "/Game/Bar/Bar"]
    queue := [("/Game/Bar/Bar", 1)], truncated := false }

def stD2 : BuildState :=
  { nodes := [("/Game/Foo/Foo", ⟨"/Game/Foo/Foo", "Unknown", []⟩),
              ("/Game/Bar/Bar", ⟨"/Game/Bar/Bar", "Unknown", []⟩),
              ("/Editor/Dev/Baz", ⟨"/Editor/Dev/Baz", "Unknown", ["editor_only"]⟩)]
    edges := [fooBarEdge, barBazEdge]
    parents := [("/Game/Bar/Bar", "/Game/Foo/Foo"), ("/Editor/Dev/Baz", "/Game/Bar/Bar")]
    edge_by_child := [("/Game/Bar/Bar", fooBarEdge), ("/Editor/Dev/Baz", barBazEdge)]
    visited := ["/Game/Foo/Foo", "/Game/Bar/Bar", "/Editor/Dev/Baz"]
    queue := [("/Editor/Dev/Baz", 2)], truncated := false }

def stD3 : BuildState :=
  { stD2 with queue := [] }

/-- The graph `build_dependency_graph srcDemo "/Game/Foo/Foo" 4 400`
evaluates to. -/
def GDemo : Graph :=
  { root_object := "/Game/Foo/Foo.Foo"
    root_package := "/Game/Foo/Foo"
    nodes := stD2.nodes
    edges := stD2.edges
    parents := stD2.parents
    edge_by_child := stD2.edge_by_child
    truncated := false
    stats := { node_count := 3, edge_count := 2, editor_only_suspected := 1
               soft_edges := 1, hard_edges := 1 } }

theorem srcDemo_run :
    bfsLoop srcDemo "/Game/Foo/Foo" 4 400 stD0 = stD3 := by
  have h1 : bfsLoop srcDemo "/Game/Foo/Foo" 4 400 stD0 =
      bfsLoop srcDemo "/Game/Foo/Foo" 4 400 stD1 := by
    conv_lhs => rw [bfsLoop.eq_def]
    rfl
  have h2 : bfsLoop srcDemo "/Game/Foo/Foo" 4 400 stD1 =
      bfsLoop srcDemo "/Game/Foo/Foo" 4 400 stD2 := by
    conv_lhs => rw [bfsLoop.eq_def]
    rfl
  have h3 : bfsLoop srcDemo "/Game/Foo/Foo" 4 400 stD2 =
      bfsLoop srcDemo "/Game/Foo/Foo" 4 400 stD3 := by
    conv_lhs => rw [bfsLoop.eq_def]
    rfl
  have h4 : bfsLoop srcDemo "/Game/Foo/Foo" 4 400 stD3 = stD3 := by
    conv_lhs => rw [bfsLoop.eq_def]
    rfl
  rw [h1, h2, h3, h4]

theorem srcDemo_eval :
    build_dependency_graph srcDemo "/Game/Foo/Foo" 4 400 = GDemo := by
  have hb : build_dependency_graph srcDemo "/Game/Foo/Foo" 4 400 =
      { root_object := "/Game/Foo/Foo.Foo"
        root_package := "/Game/Foo/Foo"
        nodes := (bfsLoop srcDemo "/Game/Foo/Foo" 4 400 stD0).nodes
        edges := (bfsLoop srcDemo "/Game/Foo/Foo" 4 400 stD0).edges
        parents := (bfsLoop srcDemo "/Game/Foo/Foo" 4 400 stD0).parents
        edge_by_child := (bfsLoop srcDemo "/Game/Foo/Foo" 4 400 stD0).edge_by_child
        truncated := (bfsLoop srcDemo "/Game/Foo/Foo" 4 400 stD0).truncated
        stats := mkStats (bfsLoop srcDemo "/Game/Foo/Foo" 4 400 stD0).nodes
          (bfsLoop srcDemo "/Game/Foo/Foo" 4 400 stD0).edges } := rfl
  rw [hb, srcDemo_run]
  decide

/-- An overshoot source: the root `/Game/A` has three hard
dependencies.  With `max_nodes = 2` a single expansion pushes the node
count to 4. -/
def srcOver : DepSource :=
  { hard := fun p => if p = "/Game/A" then ["/Game/B", "/Game/C", "/Game/D"] else []
    soft := fun _ => []
    className := fun _ => "Unknown" }

def overEdge (t : String) : Edge :=
  { frm := "/Game/A", tgt := t, dep_type := "Hard"
    reason := "Hard Runtime Reference", flags := [], depth := 1 }

def stV0 : BuildState :=
  { nodes := [("/Game/A", ⟨"/Game/A", "Unknown", []⟩)]
    edges := [], parents := [], edge_by_child := []
    visited := ["/Game/A"], queue := [("/Game/A", 0)], truncated := false }

def stV1 : BuildState :=
  { nodes := [("/Game/A", ⟨"/Game/A", "Unknown", []⟩),
              ("/Game/B", ⟨"/Game/B", "Unknown", []⟩),
              ("/Game/C", ⟨"/Game/C", "Unknown", []⟩),
              ("/Game/D", ⟨"/Game/D", "Unknown", []⟩)]
    edges := [overEdge "/Game/B", overEdge "/Game/C", overEdge "/Game/D"]
    parents := [("/Game/B", "/Game/A"), ("/Game/C", "/Game/A"), ("/Game/D", "/Game/A")]
    edge_by_child := [("/Game/B", overEdge "/Game/B"), ("/Game/C", overEdge "/Game/C"),
                      ("/Game/D", overEdge "/Game/D")]
    visited := ["/Game/A", "/Game/B", "/Game/C", "/Game/D"]
    queue := [("/Game/B", 1), ("/Game/C", 1), ("/Game/D", 1)], truncated := false }

def stV2 : BuildState :=
  { stV1 with queue := [("/Game/C", 1), ("/Game/D", 1)], truncated := true }

theorem srcOver_run :
    bfsLoop srcOver "/Game/A" 4 2 stV0 = stV2 := by
  have h1 : bfsLoop srcOver "/Game/A" 4 2 stV0 =
      bfsLoop srcOver "/Game/A" 4 2 stV1 := by
    conv_lhs => rw [bfsLoop.eq_def]
    rfl
  have h2 : bfsLoop srcOver "/Game/A" 4 2 stV1 = stV2 := by
    conv_lhs => rw [bfsLoop.eq_def]
    rfl
  rw [h1, h2]

theorem srcOver_eval :
    build_dependency_graph srcOver "/Game/A" 4 2 =
      { root_object := "/Game/A.A"
        root_package := "/Game/A"
        nodes := stV1.nodes
        edges := stV1.edges
        parents := stV1.parents
        edge_by_child := stV1.edge_by_child
        truncated := true
        stats := { node_count := 4, edge_count := 3, editor_only_suspected := 0
                   soft_edges := 0, hard_edges := 3 } } := by
  have hb : build_dependency_graph srcOver "/Game/A" 4 2 =
      { root_object := "/Game/A.A"
        root_package := "/Game/A"
        nodes := (bfsLoop srcOver "/Game/A" 4 2 stV0).nodes
        edges := (bfsLoop srcOver "/Game/A" 4 2 stV0).edges
        parents := (bfsLoop srcOver "/Game/A" 4 2 stV0).parents
        edge_by_child := (bfsLoop srcOver "/Game/A" 4 2 stV0).edge_by_child
        truncated := (bfsLoop srcOver "/Game/A" 4 2 stV0).truncated
        stats := mkStats (bfsLoop srcOver "/Game/A" 4 2 stV0).nodes
          (bfsLoop srcOver "/Game/A" 4 2 stV0).edges } := rfl
  rw [hb, srcOver_run]
  decide

/-! ### Unfolding laws of the BFS loop -/

theorem bfsLoop_nil (src : DepSource) (rp : String) (md mn : Nat) (st : BuildState)
    (h : st.queue = []) : bfsLoop src rp md mn st = st := by
  rw [bfsLoop.eq_def, h]

theorem bfsLoop_skip (src : DepSource) (rp : String) (md mn : Nat) (st : BuildState)
    (c : String) (d : Nat) (rest : List (String × Nat))
    (h : st.queue = (c, d) :: rest) (hd : d ≥ md) :
    bfsLoop src rp md mn st = bfsLoop src rp md mn { st with queue := rest } := by
  rw [bfsLoop.eq_def, h]
  simp only [if_pos hd]

theorem bfsLoop_trunc (src : DepSource) (rp : String) (md mn : Nat) (st : BuildState)
    (c : String) (d : Nat) (rest : List (String × Nat))
    (h : st.queue = (c, d) :: rest) (hd : ¬ d ≥ md) (hn : st.nodes.length ≥ mn) :
    bfsLoop src rp md mn st = { st with queue := rest, truncated := true } := by
  rw [bfsLoop.eq_def, h]
  simp only [if_neg hd, if_pos hn]

theorem bfsLoop_expand (src : DepSource) (rp : String) (md mn : Nat) (st : BuildState)
    (c : String) (d : Nat) (rest : List (String × Nat))
    (h : st.queue = (c, d) :: rest) (hd : ¬ d ≥ md) (hn : ¬ st.nodes.length ≥ mn) :
    bfsLoop src rp md mn st = bfsLoop src rp md mn
      ((combinedDeps (src.hard c) (src.soft c)).foldl
        (expandDep src rp c d) { st with queue := rest }) := by
  rw [bfsLoop.eq_def, h]
  simp only [if_neg hd, if_neg hn]

/-! ### C1: the node-count bound -/

theorem expandDep_nodes_le_one (src : DepSource) (rp cur : String) (dep : Nat)
    (st : BuildState) (dk : String × String) :
    (expandDep src rp cur dep st dk).nodes.length ≤ st.nodes.length + 1 := by
  unfold expandDep
  split
  · omega
  · show (ensure_node src st.nodes dk.1).length ≤ st.nodes.length + 1
    unfold ensure_node
    split
    · omega
    · simp

theorem foldl_expandDep_nodes_bound (src : DepSource) (rp cur : String) (dep : Nat)
    (deps : List (String × String)) (st : BuildState) :
    (deps.foldl (expandDep src rp cur dep) st).nodes.length ≤
      st.nodes.length + deps.length := by
  induction deps generalizing st with
  | nil => simp
  | cons d ds ih =>
    rw [List.foldl_cons]
    have h1 := expandDep_nodes_le_one src rp cur dep st d
    have h2 := ih (expandDep src rp cur dep st d)
    simp only [List.length_cons]
    omega

theorem bfsLoop_nodes_bound (src : DepSource) (rp : String) (md mn F : Nat)
    (hF : ∀ p : String, (combinedDeps (src.hard p) (src.soft p)).length ≤ F)
    (st : BuildState) (h : st.nodes.length ≤ max mn (mn - 1 + F)) :
    (bfsLoop src rp md mn st).nodes.length ≤ max mn (mn - 1 + F) := by
  induction st using bfsLoop.induct src rp md mn with
  | case1 st hq =>
    rw [bfsLoop_nil src rp md mn st hq]
    exact h
  | case2 st c d rest hq hd ih =>
    rw [bfsLoop_skip src rp md mn st c d rest hq hd]
    exact ih h
  | case3 st c d rest hq hd hn =>
    rw [bfsLoop_trunc src rp md mn st c d rest hq hd hn]
    exact h
  | case4 st c d rest hq hd hn ih =>
    rw [bfsLoop_expand src rp md mn st c d rest hq hd hn]
    apply ih
    have h1 := foldl_expandDep_nodes_bound src rp c d
      (combinedDeps (src.hard c) (src.soft c)) { st with queue := rest }
    have h2 := hF c
    have h3 : ({ st with queue := rest } : BuildState).nodes.length = st.nodes.length := rfl
    rw [h3] at h1
    have h4 : st.nodes.length + 1 ≤ mn := by omega
    have h5 : st.nodes.length + (combinedDeps (src.hard c) (src.soft c)).length ≤
        mn - 1 + F := by omega
    omega

theorem contains_iff_mem_char (l : List Char) (a : Char) :
    l.contains a = true ↔ a ∈ l := by
  induction l with
  | nil => simp
  | cons h t ih => simp

theorem aptop_contains_dot (x : String) (hx : x ≠ "") :
    (asset_path_to_object_path x).toList.contains '.' = true := by
  unfold asset_path_to_object_path
  rw [if_neg hx]
  set s1 := pyStrip x.toList with hs1
  by_cases hqc : (s1.contains quoteChar && (s1.getLast? == some quoteChar)) = true
  · simp only [hqc, if_true]
    set s2 := betweenQuotes s1 with hs2
    by_cases hdot : s2.contains '.' = true
    · simp only [hdot, if_true]
      exact hdot
    · simp only [hdot, if_false, Bool.false_eq_true]
      rw [String.toList]
      exact (contains_iff_mem_char _ _).2
        (List.mem_append_right _ (List.mem_cons_self _ _))
  · simp only [hqc, if_false, Bool.false_eq_true]
    by_cases hdot : s1.contains '.' = true
    · simp only [hdot, if_true]
      exact hdot
    · simp only [hdot, if_false, Bool.false_eq_true]
      rw [String.toList]
      exact (contains_iff_mem_char _ _).2
        (List.mem_append_right _ (List.mem_cons_self _ _))

/-! ## Claim C6: idempotence of the path normalizer -/

/-- The editor export-text style input whose normalization is not a
fixed point of the normalizer: the characters are quote, a, quote,
quote. -/
def quirkInput : String := ⟨[quoteChar, 'a', quoteChar, quoteChar]⟩

/-- C6 counterexample: `asset_path_to_object_path` is not idempotent.
On the raw input consisting of quote, `a`, quote, quote, the first pass
yields the string `a` quote `.` `a` quote, and the second pass strips
the quoted region again, yielding `.a`. -/
theorem asset_path_to_object_path_not_idempotent :
    asset_path_to_object_path (asset_path_to_object_path quirkInput) ≠
      asset_path_to_object_path quirkInput := by decide

/-- C6 (amended): the normalizer is idempotent on every input whose
normalized form is already whitespace-stripped and does not end with a
single quote.  (The counterexamples are exactly the raw inputs whose
quote-extraction step leaves a trailing quote or boundary whitespace in
the output.) -/
theorem asset_path_to_object_path_idempotent_of_clean (x : String)
    (hstrip : pyStrip (asset_path_to_object_path x).toList =
      (asset_path_to_object_path x).toList)
    (hq : (asset_path_to_object_path x).toList.getLast? ≠ some quoteChar) :
    asset_path_to_object_path (asset_path_to_object_path x) =
      asset_path_to_object_path x := by
  by_cases hx : x = ""
  · subst hx; rfl
  · set y := asset_path_to_object_path x with hy
    by_cases hynil : y = ""
    · rw [hynil]; rfl
    · have hdot : y.toList.contains '.' = true := by
        rw [hy]; exact aptop_contains_dot x hx
      have hqb : (y.toList.getLast? == some quoteChar) = false := by
        rw [beq_eq_false_iff_ne]; exact hq
      show asset_path_to_object_path y = y
      unfold asset_path_to_object_path
      rw [if_neg hynil]
      simp only [hstrip, hqb, Bool.and_false, Bool.false_eq_true, if_false, hdot, if_true]
      rfl

/-- C6 witness: the amended idempotence theorem applied at a concrete
well-formed input. -/
theorem asset_path_to_object_path_idempotent_witness :
    asset_path_to_object_path (asset_path_to_object_path "/Game/Foo") =
      asset_path_to_object_path "/Game/Foo" :=
  asset_path_to_object_path_idempotent_of_clean "/Game/Foo" (by decide) (by decide)

/-! ## Claim C7: classifier totality and the transitive suffix -/

/-- C7: `classify_dependency` never returns an empty reason, and for
`depth > 1` the reason is the depth-independent (steps 1 and 2) reason
with the literal suffix appended. -/
theorem classify_dependency_reason_total (root_package from_package to_package dep_kind : String)
    (depth : Nat) :
    (classify_dependency root_package from_package to_package dep_kind depth).1 ≠ "" ∧
    (depth > 1 →
      (classify_dependency root_package from_package to_package dep_kind depth).1 =
        (classify_dependency root_package from_package to_package dep_kind 1).1
          ++ " (Transitive)") := by
  constructor
  · by_cases h1 : is_editor_only_suspected to_package = true <;>
      by_cases h2 : dep_kind = "Soft" <;>
      by_cases h3 : depth > 1 <;>
      simp [classify_dependency, h1, h2, h3]
  · intro hd
    by_cases h1 : is_editor_only_suspected to_package = true <;>
      by_cases h2 : dep_kind = "Soft" <;>
      simp [classify_dependency, h1, h2, hd]

/-- C7 witness: the classifier theorem applied at a concrete input with
depth 2. -/
theorem classify_dependency_reason_total_witness :
    (classify_dependency "/Game/Foo/Foo" "/Game/A" "/Editor/Dev/Baz" "Soft" 2).1 ≠ "" ∧
    (classify_dependency "/Game/Foo/Foo" "/Game/A" "/Editor/Dev/Baz" "Soft" 2).1 =
      (classify_dependency "/Game/Foo/Foo" "/Game/A" "/Editor/Dev/Baz" "Soft" 1).1
        ++ " (Transitive)" :=
  ⟨(classify_dependency_reason_total "/Game/Foo/Foo" "/Game/A" "/Editor/Dev/Baz" "Soft" 2).1,
   (classify_dependency_reason_total "/Game/Foo/Foo" "/Game/A" "/Editor/Dev/Baz" "Soft" 2).2
     (by decide)⟩

/-! ## Claim C10: the classifier ignores its from-package argument -/

/-- C10: `classify_dependency` is independent of `from_package`: the
function body never reads it. -/
theorem classify_dependency_ignores_from (root_package f1 f2 to_package dep_kind : String)
    (depth : Nat) :
    classify_dependency root_package f1 to_package dep_kind depth =
      classify_dependency root_package f2 to_package dep_kind depth := rfl

/-! ## Claim C1: termination and the node-count cap -/

/-- C1 counterexample: with `max_depth = 4 ≥ 0` and `max_nodes = 2 ≥ 1`,
the graph built over `srcOver` has `node_count = 4 > 2`: the cap is only
checked before expanding a dequeued node, so one expansion overshoots. -/
theorem build_dependency_graph_cap_violated :
    (4 : Nat) ≥ 0 ∧ (2 : Nat) ≥ 1 ∧
      ¬ ((build_dependency_graph srcOver "/Game/A" 4 2).stats.node_count ≤ 2) := by
  refine ⟨by decide, by decide, ?_⟩
  rw [srcOver_eval]
  decide

/-- C1 (amended): the builder is total (`build_dependency_graph` is a
terminating function for every source and bounds), and when every
package's combined dependency dict has at most `F` entries the node
count is bounded by `max max_nodes (max_nodes - 1 + F)`; the stricter
bound `node_count ≤ max_nodes` of the claim fails because the cap is
checked only at dequeue time. -/
theorem build_dependency_graph_node_bound (src : DepSource) (root : String)
    (max_depth max_nodes F : Nat) (hmn : 1 ≤ max_nodes)
    (hF : ∀ p : String, (combinedDeps (src.hard p) (src.soft p)).length ≤ F) :
    (build_dependency_graph src root max_depth max_nodes).stats.node_count ≤
      max max_nodes (max_nodes - 1 + F) := by
  have hmain := bfsLoop_nodes_bound src
    (object_path_to_package_name (asset_path_to_object_path root)) max_depth max_nodes F hF
    { nodes := ensure_node src []
        (object_path_to_package_name (asset_path_to_object_path root))
      edges := [], parents := [], edge_by_child := []
      visited := [object_path_to_package_name (asset_path_to_object_path root)]
      queue := [(object_path_to_package_name (asset_path_to_object_path root), 0)]
      truncated := false }
    (by simp [ensure_node]; omega)
  exact hmain

/-- C1 witness: the amended bound applied to the concrete demo source
with fan-out bound 1 and `max_nodes = 400`. -/
theorem build_dependency_graph_node_bound_witness :
    (build_dependency_graph srcDemo "/Game/Foo/Foo" 4 400).stats.node_count ≤
      max 400 (400 - 1 + 1) := by
  apply build_dependency_graph_node_bound srcDemo "/Game/Foo/Foo" 4 400 1 (by decide)
  intro p
  by_cases h1 : p = "/Game/Foo/Foo"
  · subst h1; decide
  · by_cases h2 : p = "/Game/Bar/Bar"
    · subst h2; decide
    · simp [srcDemo, combinedDeps, h1, h2]

/-! ## Path Explainer (`explain_path`) -/

/-- One entry of the sequence `explain_path` returns. -/
structure Step where
  package : String
  reason : String
  flags : List String
deriving DecidableEq, Repr

/-- The `while chain[-1] != root and chain[-1] in parents:` loop of
`explain_path`, with an explicit fuel counting loop iterations; `cur`
is the last element of `chain`.  The Python loop is unbounded: it
diverges on a graph whose `parents` map contains a cycle not reaching
the root, and on such inputs this model returns `none` for every fuel
value. -/
def walkParents : Nat → String → List (String × String) → List String → String →
    Option (List String)
  | 0, _, _, _, _ => none
  | n + 1, root, parents, chain, cur =>
    if cur = root then some chain
    else
      match parents.lookup cur with
      | none => some chain
      | some p => walkParents n root parents (chain ++ [p]) p

/-- `explain_path` from `adr_graph.py`.  The fuel
`graph.parents.length + 1` is exact for every run of the Python loop
that terminates: each iteration follows one `parents` entry and a
terminating walk never revisits an entry, so a walk that is still
running after that many steps is in a cycle and the Python original
would never return (the `none` branch). -/
def explain_path (graph : Graph) (target_package : String) : List Step :=
  let root := graph.root_package
  let target := object_path_to_package_name target_package
  if (graph.nodes.lookup target).isSome then
    match walkParents (graph.parents.length + 1) root graph.parents [target] target with
    | none => []
    | some chain =>
      match chain.reverse with
      | [] => []
      | c0 :: rest =>
        ⟨c0, "ROOT", []⟩ ::
          rest.map (fun pkg =>
            match graph.edge_by_child.lookup pkg with
            | some e => ⟨pkg, e.reason, e.flags⟩
            | none => ⟨pkg, "Unknown", []⟩)
  else []

/-! ## Tree Projector (`build_tree_hierarchy`) -/

/-- A node of the display hierarchy. -/
inductive TreeNode where
  | mk (package : String) (children : List TreeNode) (reason : String)
      (flags : List String) (depth : Nat)

def TreeNode.children : TreeNode → List TreeNode
  | .mk _ c _ _ _ => c

/-- `children_map` of `build_tree_hierarchy`: the `from → ordered list
of to` adjacency view of the edge list. -/
def childrenMap (edges : List Edge) (pkg : String) : List String :=
  (edges.filter (fun e => e.frm == pkg)).map Edge.tgt

/-- `edge_lookup` of `build_tree_hierarchy`: keyed by `(from, to)`;
a later edge overwrites an earlier one with the same key, so the last
match wins. -/
def edgeLookup (edges : List Edge) (pkg child : String) : Option Edge :=
  (edges.filter (fun e => e.frm == pkg && e.tgt == child)).getLast?

/-- The node flags `build_node` reads from `graph["nodes"][pkg]`
(a `KeyError` — impossible for built graphs, whose edge endpoints are
all in `nodes` — is modelled as empty flags). -/
def nodeFlags (graph : Graph) (pkg : String) : List String :=
  ((graph.nodes.lookup pkg).map Node.flags).getD []

mutual

/-- The recursive `build_node` of `build_tree_hierarchy`, with an
explicit fuel modelling the Python call stack: `buildNodeF` builds the
node for `pkg`, `buildChildrenF` runs the `for child in
children_map.get(pkg, [])` loop.  The original recurses without any
cycle guard, so on a graph whose edge list contains a cycle the Python
call never returns; in this model that is the case where every fuel
value yields `none`. -/
def buildNodeF (graph : Graph) : Nat → String → Nat → Option TreeNode
  | 0, _, _ => none
  | n + 1, pkg, depth =>
    match buildChildrenF graph n pkg depth (childrenMap graph.edges pkg) with
    | none => none
    | some kids =>
      some (.mk pkg kids (if depth = 0 then "ROOT" else "") (nodeFlags graph pkg) depth)

/-- The child loop of `build_node`: each child node carries its edge's
reason and flags, and the children of the recursively built node. -/
def buildChildrenF (graph : Graph) : Nat → String → Nat → List String →
    Option (List TreeNode)
  | _, _, _, [] => some []
  | n, pkg, depth, c :: cs =>
    match edgeLookup graph.edges pkg c with
    | none => none
    | some e =>
      match buildNodeF graph n c (depth + 1) with
      | none => none
      | some sub =>
        match buildChildrenF graph n pkg depth cs with
        | none => none
        | some rest =>
          some (.mk c sub.children e.reason e.flags (depth + 1) :: rest)

end

/-- `build_tree_hierarchy` from `adr_graph.py` under the fuel model:
the Python function terminates on a graph exactly when some fuel makes
this return `some`. -/
def build_tree_hierarchy (fuel : Nat) (graph : Graph) : Option TreeNode :=
  buildNodeF graph fuel graph.root_package 0

/-! ## Policy Engine (`adr_policy.py`) -/

structure Violation where
  policy_id : String
  severity : String
  message : String
  violating_package : String
  example_path : List String
deriving DecidableEq, Repr

/-- The violation dict built for one offending edge in
`evaluate_policies`. -/
def mkViolation (graph : Graph) (e : Edge) : Violation :=
  { policy_id := "NO_EDITOR_DEPS"
    severity := "warning"
    message := "Editor-only / dev content appears in the runtime dependency graph. This may cause cook or shipping issues."
    violating_package := e.tgt
    example_path := (explain_path graph e.tgt).map Step.package }

/-- The `seen`-set deduplication loop of `evaluate_policies`. -/
def dedupViolations (seen : List (String × String)) : List Violation → List Violation
  | [] => []
  | v :: vs =>
    if (v.policy_id, v.violating_package) ∈ seen then dedupViolations seen vs
    else v :: dedupViolations ((v.policy_id, v.violating_package) :: seen) vs

/-- `evaluate_policies` from `adr_policy.py` (its `root_package`
argument is never read by the body). -/
def evaluate_policies (root_package : String) (graph : Graph) : List Violation :=
  dedupViolations []
    ((graph.edges.filter (fun e => e.flags.contains "editor_only")).map
      (mkViolation graph))

/-! ## Claim C8: deduplication in the policy engine -/

theorem mem_of_mem_dedupViolations (seen : List (String × String))
    (vs : List Violation) (v : Violation)
    (h : v ∈ dedupViolations seen vs) : v ∈ vs := by
  induction vs generalizing seen with
  | nil => cases h
  | cons w ws ih =>
    rw [dedupViolations] at h
    split at h
    · exact List.mem_cons_of_mem _ (ih _ h)
    · rcases List.mem_cons.1 h with h | h
      · exact h ▸ List.mem_cons_self _ _
      · exact List.mem_cons_of_mem _ (ih _ h)

theorem dedupViolations_key_not_seen (seen : List (String × String))
    (vs : List Violation) (v : Violation)
    (h : v ∈ dedupViolations seen vs) :
    (v.policy_id, v.violating_package) ∉ seen := by
  induction vs generalizing seen with
  | nil => cases h
  | cons w ws ih =>
    rw [dedupViolations] at h
    split at h
    · exact ih _ h
    · rcases List.mem_cons.1 h with h | h
      · subst h; assumption
      · intro hmem
        exact ih _ h (List.mem_cons_of_mem _ hmem)

theorem dedupViolations_pairwise (seen : List (String × String)) (vs : List Violation) :
    List.Pairwise (fun v w => (v.policy_id, v.violating_package) ≠
      (w.policy_id, w.violating_package)) (dedupViolations seen vs) := by
  induction vs generalizing seen with
  | nil => exact List.Pairwise.nil
  | cons w ws ih =>
    rw [dedupViolations]
    split
    · exact ih _
    · refine List.Pairwise.cons ?_ (ih _)
      intro v hv hkey
      exact dedupViolations_key_not_seen _ _ _ hv (hkey ▸ List.mem_cons_self _ _)

theorem mkViolation_eq_of_tgt (g : Graph) (e f : Edge) (h : e.tgt = f.tgt) :
    mkViolation g e = mkViolation g f := by
  unfold mkViolation
  rw [h]

/-- C8: `evaluate_policies` never returns two violations with the same
`(policy_id, violating_package)` key, and every violation it returns is
exactly the one generated from the earliest edge in edge-list order
whose flags contain `editor_only` and whose target is the violation's
package. -/
theorem evaluate_policies_dedup (root_package : String) (g : Graph) :
    List.Pairwise (fun v w => (v.policy_id, v.violating_package) ≠
      (w.policy_id, w.violating_package)) (evaluate_policies root_package g) ∧
    ∀ v ∈ evaluate_policies root_package g, ∃ e : Edge,
      g.edges.find? (fun e => e.flags.contains "editor_only" && (e.tgt == v.violating_package))
        = some e ∧ v = mkViolation g e := by
  constructor
  · exact dedupViolations_pairwise [] _
  · intro v hv
    have hmem := mem_of_mem_dedupViolations [] _ v hv
    rcases List.mem_map.1 hmem with ⟨e0, he0, hve⟩
    rcases List.mem_filter.1 he0 with ⟨he0m, he0f⟩
    have hpred : (fun e : Edge => e.flags.contains "editor_only" &&
        (e.tgt == v.violating_package)) e0 = true := by
      rw [← hve]
      simp only [mkViolation]
      rw [he0f]
      simp
    have hsome : (g.edges.find? (fun e => e.flags.contains "editor_only" &&
        (e.tgt == v.violating_package))).isSome = true := by
      rw [List.find?_isSome]
      exact ⟨e0, he0m, hpred⟩
    rcases Option.isSome_iff_exists.1 hsome with ⟨e, he⟩
    refine ⟨e, he, ?_⟩
    have hpe := List.find?_some he
    have htgt : e.tgt = v.violating_package := by
      have h2 := hpe
      rw [Bool.and_eq_true] at h2
      exact eq_of_beq h2.2
    have htgt0 : e0.tgt = v.violating_package := by
      have h2 := hpred
      rw [Bool.and_eq_true] at h2
      exact eq_of_beq h2.2
    rw [← hve]
    exact mkViolation_eq_of_tgt g e0 e (htgt0.trans htgt.symm)

/-- The single violation the demo graph produces. -/
def demoViolation : Violation :=
  { policy_id := "NO_EDITOR_DEPS"
    severity := "warning"
    message := "Editor-only / dev content appears in the runtime dependency graph. This may cause cook or shipping issues."
    violating_package := "/Editor/Dev/Baz"
    example_path := ["/Game/Foo/Foo", "/Game/Bar/Bar", "/Editor/Dev/Baz"] }

/-- C8 witness: the dedup theorem applied to the demo graph and its
concrete violation. -/
theorem evaluate_policies_dedup_witness :
    List.Pairwise (fun v w => (v.policy_id, v.violating_package) ≠
      (w.policy_id, w.violating_package)) (evaluate_policies "/Game/Foo/Foo" GDemo) ∧
    (∃ e : Edge,
      GDemo.edges.find? (fun e => e.flags.contains "editor_only" &&
        (e.tgt == demoViolation.violating_package)) = some e ∧
      demoViolation = mkViolation GDemo e) :=
  ⟨(evaluate_policies_dedup "/Game/Foo/Foo" GDemo).1,
   (evaluate_policies_dedup "/Game/Foo/Foo" GDemo).2 demoViolation (by decide)⟩

/-! ## Claim C2: the tree projector has no cycle guard -/

def cycEdgeAB : Edge :=
  { frm := "A", tgt := "B", dep_type := "Hard"
    reason := "Hard Runtime Reference", flags := [], depth := 1 }

def cycEdgeBA : Edge :=
  { frm := "B", tgt := "A", dep_type := "Hard"
    reason := "Hard Runtime Reference", flags := [], depth := 2 }

/-- A graph with the dependency cycle `A → B → A` (what
`build_dependency_graph` produces for a two-package cycle). -/
def GCyc : Graph :=
  { root_object := "A.A"
    root_package := "A"
    nodes := [("A", ⟨"A", "Unknown", []⟩), ("B", ⟨"B", "Unknown", []⟩)]
    edges := [cycEdgeAB, cycEdgeBA]
    parents := [("B", "A"), ("A", "B")]
    edge_by_child := [("B", cycEdgeAB), ("A", cycEdgeBA)]
    truncated := false
    stats := { node_count := 2, edge_count := 2, editor_only_suspected := 0
               soft_edges := 0, hard_edges := 2 } }

theorem buildNodeF_GCyc_none (n : Nat) :
    (∀ d, buildNodeF GCyc n "A" d = none) ∧ (∀ d, buildNodeF GCyc n "B" d = none) := by
  induction n with
  | zero =>
    constructor
    · intro d
      rw [buildNodeF.eq_def]
    · intro d
      rw [buildNodeF.eq_def]
  | succ n ih =>
    constructor
    · intro d
      have h1 : buildNodeF GCyc (n + 1) "A" d =
          match buildChildrenF GCyc n "A" d ["B"] with
          | none => none
          | some kids =>
            some (.mk "A" kids (if d = 0 then "ROOT" else "") (nodeFlags GCyc "A") d) := by
        rw [buildNodeF.eq_def]
        rfl
      have h2 : buildChildrenF GCyc n "A" d ["B"] =
          match buildNodeF GCyc n "B" (d + 1) with
          | none => none
          | some sub =>
            match buildChildrenF GCyc n "A" d [] with
            | none => none
            | some rest =>
              some (.mk "B" sub.children cycEdgeAB.reason cycEdgeAB.flags (d + 1) :: rest) := by
        rw [buildChildrenF.eq_def]
        rfl
      rw [h1, h2, ih.2 (d + 1)]
    · intro d
      have h1 : buildNodeF GCyc (n + 1) "B" d =
          match buildChildrenF GCyc n "B" d ["A"] with
          | none => none
          | some kids =>
            some (.mk "B" kids (if d = 0 then "ROOT" else "") (nodeFlags GCyc "B") d) := by
        rw [buildNodeF.eq_def]
        rfl
      have h2 : buildChildrenF GCyc n "B" d ["A"] =
          match buildNodeF GCyc n "A" (d + 1) with
          | none => none
          | some sub =>
            match buildChildrenF GCyc n "B" d [] with
            | none => none
            | some rest =>
              some (.mk "A" sub.children cycEdgeBA.reason cycEdgeBA.flags (d + 1) :: rest) := by
        rw [buildChildrenF.eq_def]
        rfl
      rw [h1, h2, ih.1 (d + 1)]

/-- C2: on the cyclic graph `A → B → A`, `build_tree_hierarchy` never
returns, for any call-stack budget: the Python original recurses into
the back-edge without a cycle guard and never terminates, instead of
emitting a childless `cyclic` leaf. -/
theorem build_tree_hierarchy_diverges_on_cycle (fuel : Nat) :
    build_tree_hierarchy fuel GCyc = none :=
  (buildNodeF_GCyc_none fuel).1 0

/-! ## Claim C3: the parent walk of explain_path is unbounded -/

/-- A graph whose `parents` map contains the cycle `B ↦ C ↦ B` that
does not reach the root `A` (obtainable only if the write-once
invariant is violated elsewhere — the case §4.4 of the spec demands be
defused). -/
def GPCyc : Graph :=
  { root_object := "A.A"
    root_package := "A"
    nodes := [("A", ⟨"A", "Unknown", []⟩), ("B", ⟨"B", "Unknown", []⟩),
              ("C", ⟨"C", "Unknown", []⟩)]
    edges := []
    parents := [("B", "C"), ("C", "B")]
    edge_by_child := []
    truncated := false
    stats := { node_count := 3, edge_count := 0, editor_only_suspected := 0
               soft_edges := 0, hard_edges := 0 } }

theorem walkParents_GPCyc_none (n : Nat) :
    ∀ chain, walkParents n GPCyc.root_package GPCyc.parents chain "B" = none ∧
      walkParents n GPCyc.root_package GPCyc.parents chain "C" = none := by
  induction n with
  | zero => exact fun chain => ⟨rfl, rfl⟩
  | succ n ih =>
    intro chain
    constructor
    · have h : walkParents (n + 1) GPCyc.root_package GPCyc.parents chain "B" =
          walkParents n GPCyc.root_package GPCyc.parents (chain ++ ["C"]) "C" := rfl
      rw [h]
      exact (ih _).2
    · have h : walkParents (n + 1) GPCyc.root_package GPCyc.parents chain "C" =
          walkParents n GPCyc.root_package GPCyc.parents (chain ++ ["B"]) "B" := rfl
      rw [h]
      exact (ih _).1

/-- C3: the target `B` passes the membership guard of `explain_path`
on `GPCyc`, yet the backward walk over `parents` (the Python `while`
loop, modelled by `walkParents` with the loop counter as fuel) never
reaches its exit condition for any bound: the code loops forever
instead of stopping within node-count steps. -/
theorem explain_path_walk_diverges_on_cycle :
    (GPCyc.nodes.lookup "B").isSome = true ∧
    ∀ fuel : Nat,
      walkParents fuel GPCyc.root_package GPCyc.parents ["B"] "B" = none :=
  ⟨by decide, fun fuel => (walkParents_GPCyc_none fuel ["B"]).1⟩

/-! ## Invariants of the BFS (for C4, C5, C9)

`sdFold` lemmas describe the `setdefault`-style folds of
`combinedDeps`. -/

theorem sdFold_mem_acc (v : String) (l : List String)
    (acc : List (String × String)) (x : String × String) (hx : x ∈ acc) :
    x ∈ l.foldl
      (fun acc h => if (acc.lookup h).isSome then acc else acc ++ [(h, v)]) acc := by
  induction l generalizing acc with
  | nil => exact hx
  | cons d ds ih =>
    rw [List.foldl_cons]
    apply ih
    split
    · exact hx
    · exact List.mem_append_left _ hx

theorem sdFold_mem (v : String) (l : List String)
    (acc : List (String × String)) (x : String × String)
    (hx : x ∈ l.foldl
      (fun acc h => if (acc.lookup h).isSome then acc else acc ++ [(h, v)]) acc) :
    x ∈ acc ∨ (x.1 ∈ l ∧ x.2 = v) := by
  induction l generalizing acc with
  | nil => exact Or.inl hx
  | cons d ds ih =>
    rw [List.foldl_cons] at hx
    rcases ih _ hx with h | h
    · revert h
      split
      · exact fun h => Or.inl h
      · intro h
        rcases List.mem_append.1 h with h | h
        · exact Or.inl h
        · rcases List.mem_singleton.1 h with rfl
          exact Or.inr ⟨List.mem_cons_self _ _, rfl⟩
    · exact Or.inr ⟨List.mem_cons_of_mem _ h.1, h.2⟩

theorem sdFold_keys_sub (v : String) (l : List String)
    (acc : List (String × String)) (k : String)
    (hk : k ∈ acc.map Prod.fst) :
    k ∈ (l.foldl
      (fun acc h => if (acc.lookup h).isSome then acc else acc ++ [(h, v)])
      acc).map Prod.fst := by
  rcases List.mem_map.1 hk with ⟨x, hx, hxk⟩
  exact hxk ▸ List.mem_map_of_mem _ (sdFold_mem_acc v l acc x hx)

theorem sdFold_covers (v : String) (l : List String)
    (acc : List (String × String)) (d : String) (hd : d ∈ l) :
    d ∈ (l.foldl
      (fun acc h => if (acc.lookup h).isSome then acc else acc ++ [(h, v)])
      acc).map Prod.fst := by
  induction l generalizing acc with
  | nil => cases hd
  | cons c cs ih =>
    rw [List.foldl_cons]
    rcases List.mem_cons.1 hd with rfl | hd
    · by_cases hlk : (acc.lookup d).isSome = true
      · rw [if_pos hlk]
        exact sdFold_keys_sub v cs acc d ((lookup_isSome_iff acc d).1 hlk)
      · rw [if_neg hlk]
        apply sdFold_keys_sub
        simp
    · split
      · exact ih _ hd
      · exact ih _ hd

theorem sdFold_keys_nodup (v : String) (l : List String)
    (acc : List (String × String)) (hn : (acc.map Prod.fst).Nodup) :
    ((l.foldl
      (fun acc h => if (acc.lookup h).isSome then acc else acc ++ [(h, v)])
      acc).map Prod.fst).Nodup := by
  induction l generalizing acc with
  | nil => exact hn
  | cons d ds ih =>
    rw [List.foldl_cons]
    by_cases hlk : (acc.lookup d).isSome = true
    · rw [if_pos hlk]
      exact ih _ hn
    · rw [if_neg hlk]
      apply ih
      rw [List.map_append]
      apply List.Nodup.append hn (by simp)
      intro a ha hb
      rcases List.mem_map.1 hb with ⟨x, hx, hxa⟩
      rcases List.mem_singleton.1 hx with rfl
      have : d ∈ acc.map Prod.fst := by rw [← hxa] at ha; exact ha
      exact hlk ((lookup_isSome_iff acc d).2 this)

theorem sdFold_mem_key (v : String) (l : List String)
    (acc : List (String × String)) (x : String × String)
    (hx : x ∈ l.foldl
      (fun acc h => if (acc.lookup h).isSome then acc else acc ++ [(h, v)]) acc) :
    x ∈ acc ∨ (x.2 = v ∧ x.1 ∉ acc.map Prod.fst) := by
  induction l generalizing acc with
  | nil => exact Or.inl hx
  | cons d ds ih =>
    rw [List.foldl_cons] at hx
    by_cases hlk : (acc.lookup d).isSome = true
    · rw [if_pos hlk] at hx
      exact ih _ hx
    · rw [if_neg hlk] at hx
      rcases ih _ hx with h | h
      · rcases List.mem_append.1 h with h | h
        · exact Or.inl h
        · rcases List.mem_singleton.1 h with rfl
          exact Or.inr ⟨rfl, fun hm => hlk ((lookup_isSome_iff acc d).2 hm)⟩
      · refine Or.inr ⟨h.1, fun hm => h.2 ?_⟩
        rw [List.map_append]
        exact List.mem_append_left _ hm

theorem combinedDeps_keys_nodup (h s : List String) :
    ((combinedDeps h s).map Prod.fst).Nodup := by
  unfold combinedDeps
  exact sdFold_keys_nodup "Soft" s _ (sdFold_keys_nodup "Hard" h [] (by simp))

theorem combinedDeps_hard (h s : List String) (dk : String × String)
    (hdk : dk ∈ combinedDeps h s) (hh : dk.1 ∈ h) : dk.2 = "Hard" := by
  unfold combinedDeps at hdk
  rcases sdFold_mem_key "Soft" s _ dk hdk with h1 | h1
  · rcases sdFold_mem_key "Hard" h [] dk h1 with h2 | h2
    · cases h2
    · exact h2.1
  · exact absurd (sdFold_covers "Hard" h [] dk.1 hh) h1.2

theorem combinedDeps_mem_src (h s : List String) (dk : String × String)
    (hdk : dk ∈ combinedDeps h s) : dk.1 ∈ h ∨ dk.1 ∈ s := by
  unfold combinedDeps at hdk
  rcases sdFold_mem "Soft" s _ dk hdk with h1 | h1
  · rcases sdFold_mem "Hard" h [] dk h1 with h2 | h2
    · cases h2
    · exact Or.inl h2.1
  · exact Or.inr h1.1

/-- The loop invariant of the BFS in `build_dependency_graph`, over the
fixed source `src` and root package `rp`. -/
structure BfsInv (src : DepSource) (rp : String) (st : BuildState) : Prop where
  nodes_visited : ∀ k : String, k ∈ st.nodes.map Prod.fst ↔ k ∈ st.visited
  nodes_mk : ∀ p ∈ st.nodes, Prod.snd p = mkNode src p.1
  visited_nodup : st.visited.Nodup
  queue_visited : ∀ q ∈ st.queue, Prod.fst q ∈ st.visited
  queue_nodup : (st.queue.map Prod.fst).Nodup
  queue_fresh : ∀ q ∈ st.queue, ∀ e ∈ st.edges, e.frm ≠ Prod.fst q
  edges_frm_visited : ∀ e ∈ st.edges, e.frm ∈ st.visited
  edges_tgt_nodes : ∀ e ∈ st.edges, e.tgt ∈ st.nodes.map Prod.fst
  edges_key_nodup : List.Pairwise (fun e f => e.frm ≠ f.frm ∨ e.tgt ≠ f.tgt) st.edges
  edges_flags : ∀ e ∈ st.edges,
    e.flags = (classify_dependency rp "" e.tgt e.dep_type e.depth).2
  edges_hard : ∀ e ∈ st.edges, e.tgt ∈ src.hard e.frm → e.dep_type = "Hard"
  parents_nodup : (st.parents.map Prod.fst).Nodup
  parents_visited : ∀ p ∈ st.parents, Prod.fst p ∈ st.visited ∧ Prod.snd p ∈ st.visited
  visited_rooted : ∀ k ∈ st.visited, k = rp ∨ k ∈ st.parents.map Prod.fst
  parents_rank : ∀ p ∈ st.parents, Prod.fst p ≠ rp →
    st.visited.indexOf (Prod.snd p) < st.visited.indexOf (Prod.fst p)
  root_visited : rp ∈ st.visited
  visited_src : ∀ k ∈ st.visited, k = rp ∨ ∃ q, k ∈ src.hard q ∨ k ∈ src.soft q

/-- The invariant carried through one node expansion: `rem` is the part
of the combined dependency dict still to process. -/
structure FoldInv (src : DepSource) (rp current : String)
    (rem : List (String × String)) (st : BuildState) : Prop where
  inv : BfsInv src rp st
  cur_visited : current ∈ st.visited
  queue_ne_cur : ∀ q ∈ st.queue, Prod.fst q ≠ current
  edges_cur : ∀ e ∈ st.edges, e.frm = current → e.tgt ∉ rem.map Prod.fst
  rem_nodup : (rem.map Prod.fst).Nodup
  rem_src : ∀ dk ∈ rem, Prod.fst dk ∈ src.hard current ∨ Prod.fst dk ∈ src.soft current
  rem_hard : ∀ dk ∈ rem, Prod.fst dk ∈ src.hard current → Prod.snd dk = "Hard"

theorem pairwise_append_singleton {α : Type} {R : α → α → Prop} {l : List α} {e : α}
    (h : List.Pairwise R l) (h2 : ∀ f ∈ l, R f e) : List.Pairwise R (l ++ [e]) := by
  rw [List.pairwise_append]
  exact ⟨h, List.pairwise_singleton _ _,
    fun a ha b hb => (List.mem_singleton.1 hb) ▸ h2 a ha⟩

theorem foldInv_step (src : DepSource) (rp current : String) (depth : Nat)
    (dk : String × String) (rem : List (String × String)) (st : BuildState)
    (H : FoldInv src rp current (dk :: rem) st) :
    FoldInv src rp current rem (expandDep src rp current depth st dk) := by
  obtain ⟨binv, hcur, hqnc, hec, hrn, hrs, hrh⟩ := H
  have hrn' : (rem.map Prod.fst).Nodup := by
    rw [List.map_cons] at hrn
    exact hrn.of_cons
  have hd_notin_rem : dk.1 ∉ rem.map Prod.fst := by
    rw [List.map_cons] at hrn
    exact (List.nodup_cons.1 hrn).1
  by_cases hself : dk.1 = current
  · have heq : expandDep src rp current depth st dk = st := by
      simp [expandDep, hself]
    rw [heq]
    exact ⟨binv, hcur, hqnc,
      fun e he hf hm => hec e he hf (List.mem_cons_of_mem _ hm),
      hrn', fun x hx => hrs x (List.mem_cons_of_mem _ hx),
      fun x hx => hrh x (List.mem_cons_of_mem _ hx)⟩
  · set ed : Edge :=
      { frm := current, tgt := dk.1, dep_type := dk.2
        reason := (classify_dependency rp current dk.1 dk.2 (depth + 1)).1
        flags := (classify_dependency rp current dk.1 dk.2 (depth + 1)).2
        depth := depth + 1 } with hed
    have hnodes : (expandDep src rp current depth st dk).nodes =
        ensure_node src st.nodes dk.1 := by
      simp only [expandDep, if_neg hself]
    have hedges : (expandDep src rp current depth st dk).edges = st.edges ++ [ed] := by
      simp only [expandDep, if_neg hself]
    have hparents : (expandDep src rp current depth st dk).parents =
        (if (st.parents.lookup dk.1).isSome then st.parents
         else st.parents ++ [(dk.1, current)]) := by
      simp only [expandDep, if_neg hself]
    have hvisited : (expandDep src rp current depth st dk).visited =
        (if st.visited.contains dk.1 then st.visited else st.visited ++ [dk.1]) := by
      simp only [expandDep, if_neg hself]
    have hqueue : (expandDep src rp current depth st dk).queue =
        (if st.visited.contains dk.1 then st.queue
         else st.queue ++ [(dk.1, depth + 1)]) := by
      simp only [expandDep, if_neg hself]
    have hflags_eq : ed.flags = (classify_dependency rp "" ed.tgt ed.dep_type ed.depth).2 := rfl
    have hhard_ed : ed.tgt ∈ src.hard ed.frm → ed.dep_type = "Hard" :=
      fun hh => hrh dk (List.mem_cons_self _ _) hh
    have hcross : ∀ f ∈ st.edges, f.frm ≠ ed.frm ∨ f.tgt ≠ ed.tgt := by
      intro f hf
      by_cases hfc : f.frm = current
      · right
        intro htgt
        exact hec f hf hfc (htgt ▸ List.mem_map_of_mem _ (List.mem_cons_self _ _))
      · left
        exact fun h => hfc (h.trans rfl)
    by_cases hvis : st.visited.contains dk.1 = true
    · -- the dependency package is already known
      have hvism : dk.1 ∈ st.visited := (contains_iff_mem _ _).1 hvis
      have hlk : (st.nodes.lookup dk.1).isSome = true :=
        (lookup_isSome_iff _ _).2 ((binv.nodes_visited dk.1).2 hvism)
      have hnodes' : (expandDep src rp current depth st dk).nodes = st.nodes := by
        rw [hnodes]
        unfold ensure_node
        rw [if_pos hlk]
      have hvisited' : (expandDep src rp current depth st dk).visited = st.visited := by
        rw [hvisited, if_pos hvis]
      have hqueue' : (expandDep src rp current depth st dk).queue = st.queue := by
        rw [hqueue, if_pos hvis]
      refine ⟨⟨?_, ?_, ?_, ?_, ?_, ?_, ?_, ?_, ?_, ?_, ?_, ?_, ?_, ?_, ?_, ?_, ?_⟩,
        ?_, ?_, ?_, ?_, ?_, ?_⟩
      · rw [hnodes', hvisited']
        exact binv.nodes_visited
      · rw [hnodes']
        exact binv.nodes_mk
      · rw [hvisited']
        exact binv.visited_nodup
      · rw [hqueue', hvisited']
        exact binv.queue_visited
      · rw [hqueue']
        exact binv.queue_nodup
      · rw [hqueue', hedges]
        intro q hq e he
        rcases List.mem_append.1 he with he | he
        · exact binv.queue_fresh q hq e he
        · rcases List.mem_singleton.1 he with rfl
          exact fun h => hqnc q hq h.symm
      · rw [hedges, hvisited']
        intro e he
        rcases List.mem_append.1 he with he | he
        · exact binv.edges_frm_visited e he
        · rcases List.mem_singleton.1 he with rfl
          exact hcur
      · rw [hedges, hnodes']
        intro e he
        rcases List.mem_append.1 he with he | he
        · exact binv.edges_tgt_nodes e he
        · rcases List.mem_singleton.1 he with rfl
          exact (binv.nodes_visited dk.1).2 hvism
      · rw [hedges]
        exact pairwise_append_singleton binv.edges_key_nodup hcross
      · rw [hedges]
        intro e he
        rcases List.mem_append.1 he with he | he
        · exact binv.edges_flags e he
        · rcases List.mem_singleton.1 he with rfl
          exact hflags_eq
      · rw [hedges]
        intro e he
        rcases List.mem_append.1 he with he | he
        · exact binv.edges_hard e he
        · rcases List.mem_singleton.1 he with rfl
          exact hhard_ed
      · rw [hparents]
        split
        · exact binv.parents_nodup
        · rw [List.map_append]
          apply List.Nodup.append binv.parents_nodup (by simp)
          intro a ha hb
          rcases List.mem_map.1 hb with ⟨x, hx, hxa⟩
          rcases List.mem_singleton.1 hx with rfl
          rename_i hpar
          rw [← hxa] at ha
          exact hpar ((lookup_isSome_iff _ _).2 ha)
      · rw [hparents, hvisited']
        split
        · exact binv.parents_visited
        · intro p hp
          rcases List.mem_append.1 hp with hp | hp
          · exact binv.parents_visited p hp
          · rcases List.mem_singleton.1 hp with rfl
            exact ⟨hvism, hcur⟩
      · rw [hvisited', hparents]
        intro k hk
        rcases binv.visited_rooted k hk with h | h
        · exact Or.inl h
        · right
          split
          · exact h
          · rw [List.map_append]
            exact List.mem_append_left _ h
      · rw [hparents, hvisited']
        split
        · exact binv.parents_rank
        · rename_i hpar
          intro p hp hprp
          rcases List.mem_append.1 hp with hp | hp
          · exact binv.parents_rank p hp hprp
          · rcases List.mem_singleton.1 hp with rfl
            exfalso
            rcases binv.visited_rooted dk.1 hvism with h | h
            · exact hprp h
            · exact hpar ((lookup_isSome_iff _ _).2 h)
      · rw [hvisited']
        exact binv.root_visited
      · rw [hvisited']
        exact binv.visited_src
      · rw [hvisited']
        exact hcur
      · rw [hqueue']
        exact hqnc
      · rw [hedges]
        intro e he hf
        rcases List.mem_append.1 he with he | he
        · exact fun hm => hec e he hf (List.mem_cons_of_mem _ hm)
        · rcases List.mem_singleton.1 he with rfl
          exact hd_notin_rem
      · exact hrn'
      · exact fun x hx => hrs x (List.mem_cons_of_mem _ hx)
      · exact fun x hx => hrh x (List.mem_cons_of_mem _ hx)
    · -- the dependency package is new
      have hvisF : st.visited.contains dk.1 = false := by
        cases hb : st.visited.contains dk.1 with
        | false => rfl
        | true => exact absurd hb hvis
      have hvism : dk.1 ∉ st.visited := fun hm => hvis ((contains_iff_mem _ _).2 hm)
      have hlk : ¬ (st.nodes.lookup dk.1).isSome = true := by
        intro hlk
        exact hvism ((binv.nodes_visited dk.1).1 ((lookup_isSome_iff _ _).1 hlk))
      have hpar : ¬ (st.parents.lookup dk.1).isSome = true := by
        intro hp
        have hmem : dk.1 ∈ st.parents.map Prod.fst := (lookup_isSome_iff _ _).1 hp
        rcases List.mem_map.1 hmem with ⟨x, hx, hxk⟩
        have hxv := (binv.parents_visited x hx).1
        rw [hxk] at hxv
        exact hvism hxv
      have hnodes' : (expandDep src rp current depth st dk).nodes =
          st.nodes ++ [(dk.1, mkNode src dk.1)] := by
        rw [hnodes]
        unfold ensure_node
        rw [if_neg hlk]
      have hvisited' : (expandDep src rp current depth st dk).visited =
          st.visited ++ [dk.1] := by
        rw [hvisited, if_neg (by rw [hvisF]; exact Bool.false_ne_true)]
      have hqueue' : (expandDep src rp current depth st dk).queue =
          st.queue ++ [(dk.1, depth + 1)] := by
        rw [hqueue, if_neg (by rw [hvisF]; exact Bool.false_ne_true)]
      have hparents' : (expandDep src rp current depth st dk).parents =
          st.parents ++ [(dk.1, current)] := by
        rw [hparents, if_neg hpar]
      refine ⟨⟨?_, ?_, ?_, ?_, ?_, ?_, ?_, ?_, ?_, ?_, ?_, ?_, ?_, ?_, ?_, ?_, ?_⟩,
        ?_, ?_, ?_, ?_, ?_, ?_⟩
      · rw [hnodes', hvisited']
        intro k
        rw [List.map_append, List.mem_append, List.mem_append]
        constructor
        · intro h
          rcases h with h | h
          · exact Or.inl ((binv.nodes_visited k).1 h)
          · simp at h
            simp [h]
        · intro h
          rcases h with h | h
          · exact Or.inl ((binv.nodes_visited k).2 h)
          · simp at h
            simp [h]
      · rw [hnodes']
        intro p hp
        rcases List.mem_append.1 hp with hp | hp
        · exact binv.nodes_mk p hp
        · rcases List.mem_singleton.1 hp with rfl
          rfl
      · rw [hvisited']
        rw [List.nodup_append]
        exact ⟨binv.visited_nodup, by simp, by simpa using hvism⟩
      · rw [hqueue', hvisited']
        intro q hq
        rcases List.mem_append.1 hq with hq | hq
        · exact List.mem_append_left _ (binv.queue_visited q hq)
        · rcases List.mem_singleton.1 hq with rfl
          exact List.mem_append_right _ (by simp)
      · rw [hqueue', List.map_append, List.nodup_append]
        refine ⟨binv.queue_nodup, by simp, ?_⟩
        intro a ha hb
        rcases List.mem_map.1 ha with ⟨x, hx, hxa⟩
        simp at hb
        subst hb
        exact hvism (hxa ▸ binv.queue_visited x hx)
      · rw [hqueue', hedges]
        intro q hq e he
        rcases List.mem_append.1 hq with hq | hq
        · rcases List.mem_append.1 he with he | he
          · exact binv.queue_fresh q hq e he
          · rcases List.mem_singleton.1 he with rfl
            exact fun h => hqnc q hq h.symm
        · rcases List.mem_singleton.1 hq with rfl
          rcases List.mem_append.1 he with he | he
          · exact fun h => hvism (h ▸ binv.edges_frm_visited e he)
          · rcases List.mem_singleton.1 he with rfl
            exact fun h => hself h.symm
      · rw [hedges, hvisited']
        intro e he
        rcases List.mem_append.1 he with he | he
        · exact List.mem_append_left _ (binv.edges_frm_visited e he)
        · rcases List.mem_singleton.1 he with rfl
          exact List.mem_append_left _ hcur
      · rw [hedges, hnodes']
        intro e he
        rw [List.map_append]
        rcases List.mem_append.1 he with he | he
        · exact List.mem_append_left _ (binv.edges_tgt_nodes e he)
        · rcases List.mem_singleton.1 he with rfl
          exact List.mem_append_right _ (by simp)
      · rw [hedges]
        exact pairwise_append_singleton binv.edges_key_nodup hcross
      · rw [hedges]
        intro e he
        rcases List.mem_append.1 he with he | he
        · exact binv.edges_flags e he
        · rcases List.mem_singleton.1 he with rfl
          exact hflags_eq
      · rw [hedges]
        intro e he
        rcases List.mem_append.1 he with he | he
        · exact binv.edges_hard e he
        · rcases List.mem_singleton.1 he with rfl
          exact hhard_ed
      · rw [hparents', List.map_append, List.nodup_append]
        refine ⟨binv.parents_nodup, by simp, ?_⟩
        intro a ha hb
        simp at hb
        subst hb
        exact hpar ((lookup_isSome_iff _ _).2 ha)
      · rw [hparents', hvisited']
        intro p hp
        rcases List.mem_append.1 hp with hp | hp
        · exact ⟨List.mem_append_left _ (binv.parents_visited p hp).1,
            List.mem_append_left _ (binv.parents_visited p hp).2⟩
        · rcases List.mem_singleton.1 hp with rfl
          exact ⟨List.mem_append_right _ (by simp), List.mem_append_left _ hcur⟩
      · rw [hvisited', hparents']
        intro k hk
        rcases List.mem_append.1 hk with hk | hk
        · rcases binv.visited_rooted k hk with h | h
          · exact Or.inl h
          · right
            rw [List.map_append]
            exact List.mem_append_left _ h
        · rcases List.mem_singleton.1 hk with rfl
          right
          rw [List.map_append]
          exact List.mem_append_right _ (by simp)
      · rw [hparents', hvisited']
        intro p hp hprp
        rcases List.mem_append.1 hp with hp | hp
        · rw [List.indexOf_append_of_mem (binv.parents_visited p hp).1,
            List.indexOf_append_of_mem (binv.parents_visited p hp).2]
          exact binv.parents_rank p hp hprp
        · rcases List.mem_singleton.1 hp with rfl
          rw [List.indexOf_append_of_mem hcur,
            List.indexOf_append_of_not_mem hvism]
          have h1 : List.indexOf current st.visited < st.visited.length :=
            List.indexOf_lt_length.2 hcur
          have h2 : List.indexOf dk.1 [dk.1] = 0 := List.indexOf_cons_self _ _
          omega
      · rw [hvisited']
        exact List.mem_append_left _ binv.root_visited
      · rw [hvisited']
        intro k hk
        rcases List.mem_append.1 hk with hk | hk
        · exact binv.visited_src k hk
        · rcases List.mem_singleton.1 hk with rfl
          exact Or.inr ⟨current, hrs dk (List.mem_cons_self _ _)⟩
      · rw [hvisited']
        exact List.mem_append_left _ hcur
      · rw [hqueue']
        intro q hq
        rcases List.mem_append.1 hq with hq | hq
        · exact hqnc q hq
        · rcases List.mem_singleton.1 hq with rfl
          exact hself
      · rw [hedges]
        intro e he hf
        rcases List.mem_append.1 he with he | he
        · exact fun hm => hec e he hf (List.mem_cons_of_mem _ hm)
        · rcases List.mem_singleton.1 he with rfl
          exact hd_notin_rem
      · exact hrn'
      · exact fun x hx => hrs x (List.mem_cons_of_mem _ hx)
      · exact fun x hx => hrh x (List.mem_cons_of_mem _ hx)

theorem foldInv_fold (src : DepSource) (rp current : String) (depth : Nat)
    (deps : List (String × String)) (st : BuildState)
    (H : FoldInv src rp current deps st) :
    FoldInv src rp current []
      (deps.foldl (expandDep src rp current depth) st) := by
  induction deps generalizing st with
  | nil => exact H
  | cons dk rem ih =>
    rw [List.foldl_cons]
    exact ih _ (foldInv_step src rp current depth dk rem st H)

theorem bfsInv_drop_queue_head (src : DepSource) (rp : String) (st : BuildState)
    (c : String) (d : Nat) (rest : List (String × Nat))
    (hq : st.queue = (c, d) :: rest) (binv : BfsInv src rp st) (t : Bool) :
    BfsInv src rp { st with queue := rest, truncated := t } := by
  have hrest : ∀ q, q ∈ rest → q ∈ st.queue := by
    intro q hqm
    rw [hq]
    exact List.mem_cons_of_mem _ hqm
  exact
    { nodes_visited := binv.nodes_visited
      nodes_mk := binv.nodes_mk
      visited_nodup := binv.visited_nodup
      queue_visited := fun q hqm => binv.queue_visited q (hrest q hqm)
      queue_nodup := by
        have h := binv.queue_nodup
        rw [hq, List.map_cons] at h
        exact h.of_cons
      queue_fresh := fun q hqm => binv.queue_fresh q (hrest q hqm)
      edges_frm_visited := binv.edges_frm_visited
      edges_tgt_nodes := binv.edges_tgt_nodes
      edges_key_nodup := binv.edges_key_nodup
      edges_flags := binv.edges_flags
      edges_hard := binv.edges_hard
      parents_nodup := binv.parents_nodup
      parents_visited := binv.parents_visited
      visited_rooted := binv.visited_rooted
      parents_rank := binv.parents_rank
      root_visited := binv.root_visited
      visited_src := binv.visited_src }

theorem foldInv_entry (src : DepSource) (rp : String) (st : BuildState)
    (current : String) (depth : Nat) (rest : List (String × Nat))
    (hq : st.queue = (current, depth) :: rest) (binv : BfsInv src rp st) :
    FoldInv src rp current (combinedDeps (src.hard current) (src.soft current))
      { st with queue := rest } := by
  have hhead : (current, depth) ∈ st.queue := by
    rw [hq]
    exact List.mem_cons_self _ _
  have hqn := binv.queue_nodup
  rw [hq, List.map_cons] at hqn
  exact
    { inv := bfsInv_drop_queue_head src rp st current depth rest hq binv st.truncated
      cur_visited := binv.queue_visited _ hhead
      queue_ne_cur := by
        intro q hqm hqc
        have hqm2 : q ∈ rest := hqm
        have hmf : Prod.fst q ∈ rest.map Prod.fst := List.mem_map_of_mem _ hqm2
        rw [hqc] at hmf
        exact (List.nodup_cons.1 hqn).1 hmf
      edges_cur := by
        intro e he hf
        exact absurd hf (binv.queue_fresh _ hhead e he)
      rem_nodup := combinedDeps_keys_nodup _ _
      rem_src := fun dk hdk => combinedDeps_mem_src _ _ dk hdk
      rem_hard := fun dk hdk => combinedDeps_hard _ _ dk hdk }

theorem bfsLoop_inv (src : DepSource) (rp : String) (md mn : Nat)
    (st : BuildState) (binv : BfsInv src rp st) :
    BfsInv src rp (bfsLoop src rp md mn st) := by
  induction st using bfsLoop.induct src rp md mn with
  | case1 st hq =>
    rw [bfsLoop_nil src rp md mn st hq]
    exact binv
  | case2 st c d rest hq hd ih =>
    rw [bfsLoop_skip src rp md mn st c d rest hq hd]
    exact ih (bfsInv_drop_queue_head src rp st c d rest hq binv st.truncated)
  | case3 st c d rest hq hd hn =>
    rw [bfsLoop_trunc src rp md mn st c d rest hq hd hn]
    exact bfsInv_drop_queue_head src rp st c d rest hq binv true
  | case4 st c d rest hq hd hn ih =>
    rw [bfsLoop_expand src rp md mn st c d rest hq hd hn]
    exact ih (foldInv_fold src rp c d _ _ (foldInv_entry src rp st c d rest hq binv)).inv

theorem lookup_mem {β : Type} (l : List (String × β)) (k : String) (v : β)
    (h : l.lookup k = some v) : (k, v) ∈ l := by
  induction l with
  | nil => cases h
  | cons p t ih =>
    cases p with
    | mk a b =>
      rw [List.lookup] at h
      by_cases hk : k = a
      · subst hk
        simp only [beq_self_eq_true] at h
        cases h
        exact List.mem_cons_self _ _
      · have hb : (k == a) = false := by simpa using hk
        simp only [hb] at h
        exact List.mem_cons_of_mem _ (ih h)

/-- The initial state of the BFS satisfies the invariant. -/
def rootPkg (root : String) : String :=
  object_path_to_package_name (asset_path_to_object_path root)

def initState (src : DepSource) (root : String) : BuildState :=
  { nodes := ensure_node src [] (rootPkg root)
    edges := [], parents := [], edge_by_child := []
    visited := [rootPkg root], queue := [(rootPkg root, 0)], truncated := false }

def buildLoopState (src : DepSource) (root : String) (md mn : Nat) : BuildState :=
  bfsLoop src (rootPkg root) md mn (initState src root)

theorem build_dependency_graph_unfold (src : DepSource) (root : String) (md mn : Nat) :
    build_dependency_graph src root md mn =
      { root_object := asset_path_to_object_path root
        root_package := rootPkg root
        nodes := (buildLoopState src root md mn).nodes
        edges := (buildLoopState src root md mn).edges
        parents := (buildLoopState src root md mn).parents
        edge_by_child := (buildLoopState src root md mn).edge_by_child
        truncated := (buildLoopState src root md mn).truncated
        stats := mkStats (buildLoopState src root md mn).nodes
          (buildLoopState src root md mn).edges } := rfl

theorem initState_inv (src : DepSource) (root : String) :
    BfsInv src (rootPkg root) (initState src root) := by
  have hnodes : (initState src root).nodes = [(rootPkg root, mkNode src (rootPkg root))] := by
    simp [initState, ensure_node]
  refine ⟨?_, ?_, ?_, ?_, ?_, ?_, ?_, ?_, ?_, ?_, ?_, ?_, ?_, ?_, ?_, ?_, ?_⟩
  · rw [hnodes]
    intro k
    simp [initState]
  · rw [hnodes]
    intro p hp
    rcases List.mem_singleton.1 hp with rfl
    rfl
  · simp [initState]
  · intro q hq
    rcases List.mem_singleton.1 hq with rfl
    simp [initState]
  · simp [initState]
  · intro q hq e he
    cases he
  · intro e he
    cases he
  · intro e he
    cases he
  · exact List.Pairwise.nil
  · intro e he
    cases he
  · intro e he
    cases he
  · simp [initState]
  · intro p hp
    cases hp
  · intro k hk
    rcases List.mem_singleton.1 hk with rfl
    exact Or.inl rfl
  · intro p hp
    cases hp
  · simp [initState]
  · intro k hk
    rcases List.mem_singleton.1 hk with rfl
    exact Or.inl rfl

theorem buildLoopState_inv (src : DepSource) (root : String) (md mn : Nat) :
    BfsInv src (rootPkg root) (buildLoopState src root md mn) :=
  bfsLoop_inv src (rootPkg root) md mn (initState src root) (initState_inv src root)

/-! ## Claim C5: at most one edge per ordered pair, hard wins -/

/-- C5: in every built graph no two edges share the ordered pair
`(from, to)`, and any edge whose target is among its source node's hard
dependencies is classified `Hard` (in particular, a target listed both
hard and soft yields exactly one edge, of kind `Hard`). -/
theorem build_dependency_graph_edges_unique (src : DepSource) (root : String)
    (md mn : Nat) :
    List.Pairwise (fun e f => e.frm ≠ f.frm ∨ e.tgt ≠ f.tgt)
      (build_dependency_graph src root md mn).edges ∧
    ∀ e ∈ (build_dependency_graph src root md mn).edges,
      e.tgt ∈ src.hard e.frm → e.dep_type = "Hard" := by
  rw [build_dependency_graph_unfold]
  exact ⟨(buildLoopState_inv src root md mn).edges_key_nodup,
    (buildLoopState_inv src root md mn).edges_hard⟩

/-- C5 witness: the uniqueness theorem applied to the demo build; its
hard edge is indeed classified `Hard`. -/
theorem build_dependency_graph_edges_unique_witness :
    List.Pairwise (fun e f => e.frm ≠ f.frm ∨ e.tgt ≠ f.tgt)
      (build_dependency_graph srcDemo "/Game/Foo/Foo" 4 400).edges ∧
    fooBarEdge.dep_type = "Hard" :=
  ⟨(build_dependency_graph_edges_unique srcDemo "/Game/Foo/Foo" 4 400).1,
   (build_dependency_graph_edges_unique srcDemo "/Game/Foo/Foo" 4 400).2 fooBarEdge
     (by rw [srcDemo_eval]; decide) (by decide)⟩

/-! ## Claim C9: edge flags match target node flags -/

theorem classify_flags_editor (rp f to_pkg k : String) (d : Nat) :
    "editor_only" ∈ (classify_dependency rp f to_pkg k d).2 ↔
      is_editor_only_suspected to_pkg = true := by
  by_cases h1 : is_editor_only_suspected to_pkg = true <;>
    by_cases h2 : ['\x2f', 'G', 'a', 'm', 'e', '\x2f'] <+: rp.data <;>
    simp [classify_dependency, h1, h2]

theorem mkNode_flags_editor (src : DepSource) (p : String) :
    "editor_only" ∈ (mkNode src p).flags ↔ is_editor_only_suspected p = true := by
  by_cases h : is_editor_only_suspected p = true <;> simp [mkNode, h]

/-- C9: a built edge carries the `editor_only` flag exactly when the
node of its target package carries it — both are the same marker test
on the same package string. -/
theorem build_dependency_graph_edge_node_flags (src : DepSource) (root : String)
    (md mn : Nat) :
    ∀ e ∈ (build_dependency_graph src root md mn).edges,
      ("editor_only" ∈ e.flags ↔
        ∃ n : Node, (build_dependency_graph src root md mn).nodes.lookup e.tgt = some n ∧
          "editor_only" ∈ n.flags) := by
  rw [build_dependency_graph_unfold]
  intro e he
  have binv := buildLoopState_inv src root md mn
  have hflags := binv.edges_flags e he
  have htgt := binv.edges_tgt_nodes e he
  have hlk : ((buildLoopState src root md mn).nodes.lookup e.tgt).isSome = true :=
    (lookup_isSome_iff _ _).2 htgt
  obtain ⟨n, hn⟩ := Option.isSome_iff_exists.1 hlk
  have hmem : (e.tgt, n) ∈ (buildLoopState src root md mn).nodes := lookup_mem _ _ _ hn
  have hmk : n = mkNode src e.tgt := binv.nodes_mk (e.tgt, n) hmem
  constructor
  · intro hf
    refine ⟨n, hn, ?_⟩
    rw [hmk]
    rw [mkNode_flags_editor]
    rw [hflags] at hf
    exact (classify_flags_editor _ _ _ _ _).1 hf
  · intro hex
    obtain ⟨m, hm, hmf⟩ := hex
    rw [hn] at hm
    cases hm
    rw [hmk, mkNode_flags_editor] at hmf
    rw [hflags]
    exact (classify_flags_editor _ _ _ _ _).2 hmf

/-- C9 witness: the flag correspondence applied to the demo build's
editor-only edge. -/
theorem build_dependency_graph_edge_node_flags_witness :
    "editor_only" ∈ barBazEdge.flags ↔
      ∃ n : Node,
        (build_dependency_graph srcDemo "/Game/Foo/Foo" 4 400).nodes.lookup barBazEdge.tgt
          = some n ∧ "editor_only" ∈ n.flags :=
  build_dependency_graph_edge_node_flags srcDemo "/Game/Foo/Foo" 4 400 barBazEdge
    (by rw [srcDemo_eval]; decide)

/-! ## Claim C4: the explain roundtrip -/

theorem nodup_length_le_of_sub (visited keys : List String) (rp : String)
    (hnd : visited.Nodup) (hsub : ∀ k ∈ visited, k = rp ∨ k ∈ keys) :
    visited.length ≤ keys.length + 1 := by
  have h1 : visited.toFinset.card = visited.length := List.toFinset_card_of_nodup hnd
  have h2 : visited.toFinset ⊆ insert rp keys.toFinset := by
    intro a ha
    rw [List.mem_toFinset] at ha
    rcases hsub a ha with h | h
    · exact Finset.mem_insert.2 (Or.inl h)
    · exact Finset.mem_insert.2 (Or.inr (List.mem_toFinset.2 h))
  have h3 := Finset.card_le_card h2
  have h4 := Finset.card_insert_le rp keys.toFinset
  have h5 := List.toFinset_card_le keys
  omega

theorem walkParents_grounded (rp : String) (parents : List (String × String))
    (visited : List String)
    (hval : ∀ pr ∈ parents, Prod.fst pr ∈ visited ∧ Prod.snd pr ∈ visited)
    (hroot : ∀ k ∈ visited, k = rp ∨ k ∈ parents.map Prod.fst)
    (hrank : ∀ pr ∈ parents, Prod.fst pr ≠ rp →
      visited.indexOf (Prod.snd pr) < visited.indexOf (Prod.fst pr)) :
    ∀ fuel cur chain, cur ∈ visited → visited.indexOf cur < fuel → chain ≠ [] →
      chain.getLast? = some cur →
      ∃ ch, walkParents fuel rp parents chain cur = some ch ∧
        ch.head? = chain.head? ∧ ch.getLast? = some rp := by
  intro fuel
  induction fuel with
  | zero =>
    intro cur chain hcv hidx hne hlast
    omega
  | succ n ih =>
    intro cur chain hcv hidx hne hlast
    by_cases hcr : cur = rp
    · subst hcr
      refine ⟨chain, ?_, rfl, hlast⟩
      simp [walkParents]
    · cases hlk : parents.lookup cur with
      | none =>
        exfalso
        rcases hroot cur hcv with h | h
        · exact hcr h
        · have hs := (lookup_isSome_iff parents cur).2 h
          rw [hlk] at hs
          exact Bool.noConfusion hs
      | some p =>
        have hmem : (cur, p) ∈ parents := lookup_mem _ _ _ hlk
        have hpv : p ∈ visited := (hval _ hmem).2
        have hrk : visited.indexOf p < visited.indexOf cur := hrank _ hmem hcr
        have hstep : walkParents (n + 1) rp parents chain cur =
            walkParents n rp parents (chain ++ [p]) p := by
          simp [walkParents, hcr, hlk]
        obtain ⟨ch, hch, hhead, hlast2⟩ := ih p (chain ++ [p]) hpv (by omega)
          (by simp) (List.getLast?_concat _)
        refine ⟨ch, hstep ▸ hch, ?_, hlast2⟩
        rw [hhead, List.head?_append]
        cases chain with
        | nil => exact absurd rfl hne
        | cons c cs => rfl

theorem explain_path_eval (G : Graph) (p : String) (ch : List String)
    (htgt : object_path_to_package_name p = p)
    (hlkp : (G.nodes.lookup p).isSome = true)
    (hch : walkParents (G.parents.length + 1) G.root_package G.parents [p] p = some ch) :
    explain_path G p =
      match ch.reverse with
      | [] => []
      | c0 :: rest =>
        ⟨c0, "ROOT", []⟩ :: rest.map (fun pkg =>
          match G.edge_by_child.lookup pkg with
          | some e => ⟨pkg, e.reason, e.flags⟩
          | none => ⟨pkg, "Unknown", []⟩) := by
  unfold explain_path
  rw [htgt, if_pos hlkp, hch]

/-- C4 (amended): provided the dependency source returns canonical
package identifiers and the root normalizes to a canonical package,
`explain_path` on a built graph returns, for every package in
`graph.nodes`, a non-empty sequence starting at the root step (reason
`"ROOT"`, empty flags) and ending at the package; and the empty
sequence for every canonical package absent from `graph.nodes`.  (For
non-canonical strings the claim fails: `explain_path` re-normalizes its
target first — see the counterexample.) -/
theorem explain_path_roundtrip (src : DepSource) (root : String) (md mn : Nat)
    (hsrc : ∀ q d, d ∈ src.hard q ∨ d ∈ src.soft q →
      object_path_to_package_name d = d)
    (hroot : object_path_to_package_name (rootPkg root) = rootPkg root) :
    (∀ p, p ∈ (build_dependency_graph src root md mn).nodes.map Prod.fst →
      explain_path (build_dependency_graph src root md mn) p ≠ [] ∧
      (explain_path (build_dependency_graph src root md mn) p).head? =
        some ⟨(build_dependency_graph src root md mn).root_package, "ROOT", []⟩ ∧
      ((explain_path (build_dependency_graph src root md mn) p).getLast?).map
        Step.package = some p) ∧
    (∀ q, object_path_to_package_name q = q →
      q ∉ (build_dependency_graph src root md mn).nodes.map Prod.fst →
      explain_path (build_dependency_graph src root md mn) q = []) := by
  have binv := buildLoopState_inv src root md mn
  rw [build_dependency_graph_unfold]
  constructor
  · intro p hp
    have hp' : p ∈ (buildLoopState src root md mn).nodes.map Prod.fst := hp
    have hpv : p ∈ (buildLoopState src root md mn).visited :=
      (binv.nodes_visited p).1 hp'
    have htgt : object_path_to_package_name p = p := by
      rcases binv.visited_src p hpv with h | h
      · rw [h]
        exact hroot
      · obtain ⟨q, hq⟩ := h
        exact hsrc q p hq
    have hfuel : (buildLoopState src root md mn).visited.indexOf p <
        (buildLoopState src root md mn).parents.length + 1 := by
      have h1 : (buildLoopState src root md mn).visited.indexOf p <
          (buildLoopState src root md mn).visited.length :=
        List.indexOf_lt_length.2 hpv
      have h2 := nodup_length_le_of_sub (buildLoopState src root md mn).visited
        ((buildLoopState src root md mn).parents.map Prod.fst) (rootPkg root)
        binv.visited_nodup binv.visited_rooted
      rw [List.length_map] at h2
      omega
    obtain ⟨ch, hch, hhead, hlast⟩ := walkParents_grounded (rootPkg root)
      (buildLoopState src root md mn).parents (buildLoopState src root md mn).visited
      binv.parents_visited binv.visited_rooted binv.parents_rank
      ((buildLoopState src root md mn).parents.length + 1) p [p] hpv hfuel
      (by simp) (by simp)
    have hlkp : ((buildLoopState src root md mn).nodes.lookup p).isSome = true :=
      (lookup_isSome_iff _ _).2 hp'
    have hexp := explain_path_eval
      { root_object := asset_path_to_object_path root
        root_package := rootPkg root
        nodes := (buildLoopState src root md mn).nodes
        edges := (buildLoopState src root md mn).edges
        parents := (buildLoopState src root md mn).parents
        edge_by_child := (buildLoopState src root md mn).edge_by_child
        truncated := (buildLoopState src root md mn).truncated
        stats := mkStats (buildLoopState src root md mn).nodes
          (buildLoopState src root md mn).edges }
      p ch htgt hlkp hch
    have hchne : ch ≠ [] := by
      intro h
      rw [h] at hhead
      exact Option.noConfusion hhead
    have hrevhead : ch.reverse.head? = some (rootPkg root) := by
      rw [List.head?_reverse]
      exact hlast
    cases hrev : ch.reverse with
    | nil =>
      exfalso
      rw [hrev] at hrevhead
      exact Option.noConfusion hrevhead
    | cons c0 rest =>
      rw [hrev] at hrevhead
      have hc0 : c0 = rootPkg root := by
        injection hrevhead
      subst hc0
      rw [hexp, hrev]
      refine ⟨by simp, rfl, ?_⟩
      have hmapf : (rest.map (fun pkg =>
          match (buildLoopState src root md mn).edge_by_child.lookup pkg with
          | some e => (⟨pkg, e.reason, e.flags⟩ : Step)
          | none => (⟨pkg, "Unknown", []⟩ : Step))).map Step.package = rest := by
        rw [List.map_map]
        have hid : ∀ x ∈ rest, (Step.package ∘ fun pkg =>
            match (buildLoopState src root md mn).edge_by_child.lookup pkg with
            | some e => (⟨pkg, e.reason, e.flags⟩ : Step)
            | none => (⟨pkg, "Unknown", []⟩ : Step)) x = x := by
          intro x hx
          cases hlkx : (buildLoopState src root md mn).edge_by_child.lookup x <;>
            simp [Function.comp, hlkx]
        rw [List.map_congr_left hid, List.map_id']
      have hsteps : ((⟨rootPkg root, "ROOT", []⟩ : Step) :: rest.map (fun pkg =>
          match (buildLoopState src root md mn).edge_by_child.lookup pkg with
          | some e => (⟨pkg, e.reason, e.flags⟩ : Step)
          | none => (⟨pkg, "Unknown", []⟩ : Step))).map Step.package =
          rootPkg root :: rest := by
        rw [List.map_cons, hmapf]
      have hgl := List.getLast?_map Step.package
        ((⟨rootPkg root, "ROOT", []⟩ : Step) :: rest.map (fun pkg =>
          match (buildLoopState src root md mn).edge_by_child.lookup pkg with
          | some e => (⟨pkg, e.reason, e.flags⟩ : Step)
          | none => (⟨pkg, "Unknown", []⟩ : Step)))
      rw [hsteps] at hgl
      rw [← hgl, ← hrev, List.getLast?_reverse]
      exact hhead
  · intro q hcq hnq
    have hns : ¬ ((buildLoopState src root md mn).nodes.lookup q).isSome = true := by
      intro h
      exact hnq ((lookup_isSome_iff _ _).1 h)
    unfold explain_path
    rw [hcq, if_neg hns]

/-- A source with no dependencies at all. -/
def srcEmpty : DepSource :=
  { hard := fun _ => [], soft := fun _ => [], className := fun _ => "Unknown" }

/-- The quoted raw root whose package normalizes to the two-character
string `a` space: the characters are quote, a, space, quote. -/
def oddRoot : String := ⟨[quoteChar, 'a', ' ', quoteChar]⟩

/-- The package `a` space. -/
def aSpace : String := ⟨['a', ' ']⟩

def stE0 : BuildState :=
  { nodes := [(aSpace, ⟨aSpace, "Unknown", []⟩)]
    edges := [], parents := [], edge_by_child := []
    visited := [aSpace], queue := [(aSpace, 0)], truncated := false }

def stE1 : BuildState :=
  { stE0 with queue := [] }

/-- The graph built from the quoted root with `max_depth = 0`. -/
def GOdd : Graph :=
  { root_object := ⟨['a', ' ', '.', 'a', ' ']⟩
    root_package := aSpace
    nodes := stE0.nodes
    edges := [], parents := [], edge_by_child := []
    truncated := false
    stats := { node_count := 1, edge_count := 0, editor_only_suspected := 0
               soft_edges := 0, hard_edges := 0 } }

theorem srcEmpty_eval :
    build_dependency_graph srcEmpty oddRoot 0 400 = GOdd := by
  have h1 : bfsLoop srcEmpty aSpace 0 400 stE0 = bfsLoop srcEmpty aSpace 0 400 stE1 := by
    conv_lhs => rw [bfsLoop.eq_def]
    rfl
  have h2 : bfsLoop srcEmpty aSpace 0 400 stE1 = stE1 := by
    conv_lhs => rw [bfsLoop.eq_def]
    rfl
  have hb : build_dependency_graph srcEmpty oddRoot 0 400 =
      { root_object := ⟨['a', ' ', '.', 'a', ' ']⟩
        root_package := aSpace
        nodes := (bfsLoop srcEmpty aSpace 0 400 stE0).nodes
        edges := (bfsLoop srcEmpty aSpace 0 400 stE0).edges
        parents := (bfsLoop srcEmpty aSpace 0 400 stE0).parents
        edge_by_child := (bfsLoop srcEmpty aSpace 0 400 stE0).edge_by_child
        truncated := (bfsLoop srcEmpty aSpace 0 400 stE0).truncated
        stats := mkStats (bfsLoop srcEmpty aSpace 0 400 stE0).nodes
          (bfsLoop srcEmpty aSpace 0 400 stE0).edges } := rfl
  rw [hb, h1, h2]
  decide

/-- C4 counterexample: the package `a` space sits in the nodes of the
graph built from the quoted root, yet `explain_path` returns the empty
sequence for it — the function re-normalizes its target, and this
package is not a fixed point of the normalizer. -/
theorem explain_path_roundtrip_violated :
    aSpace ∈ (build_dependency_graph srcEmpty oddRoot 0 400).nodes.map Prod.fst ∧
    explain_path (build_dependency_graph srcEmpty oddRoot 0 400) aSpace = [] := by
  rw [srcEmpty_eval]
  exact ⟨by decide, by decide⟩

/-- C4 witness: the amended roundtrip theorem applied to the demo
build, at the reachable package `/Editor/Dev/Baz` and the absent
canonical package `/Game/Missing`. -/
theorem explain_path_roundtrip_witness :
    (explain_path (build_dependency_graph srcDemo "/Game/Foo/Foo" 4 400)
        "/Editor/Dev/Baz" ≠ [] ∧
      (explain_path (build_dependency_graph srcDemo "/Game/Foo/Foo" 4 400)
        "/Editor/Dev/Baz").head? =
        some ⟨(build_dependency_graph srcDemo "/Game/Foo/Foo" 4 400).root_package,
          "ROOT", []⟩ ∧
      ((explain_path (build_dependency_graph srcDemo "/Game/Foo/Foo" 4 400)
        "/Editor/Dev/Baz").getLast?).map Step.package = some "/Editor/Dev/Baz") ∧
    explain_path (build_dependency_graph srcDemo "/Game/Foo/Foo" 4 400)
      "/Game/Missing" = [] := by
  have hsrc : ∀ q d, d ∈ srcDemo.hard q ∨ d ∈ srcDemo.soft q →
      object_path_to_package_name d = d := by
    intro q d h
    rcases h with h | h
    · simp only [srcDemo] at h
      split at h
      · rcases List.mem_singleton.1 h with rfl
        decide
      · cases h
    · simp only [srcDemo] at h
      split at h
      · rcases List.mem_singleton.1 h with rfl
        decide
      · cases h
  have hroot : object_path_to_package_name (rootPkg "/Game/Foo/Foo") =
      rootPkg "/Game/Foo/Foo" := by decide
  constructor
  · exact (explain_path_roundtrip srcDemo "/Game/Foo/Foo" 4 400 hsrc hroot).1
      "/Editor/Dev/Baz" (by rw [srcDemo_eval]; decide)
  · exact (explain_path_roundtrip srcDemo "/Game/Foo/Foo" 4 400 hsrc hroot).2
      "/Game/Missing" (by decide) (by rw [srcDemo_eval]; decide)
